import Mathlib

/-!
Verification development for `build_publications.py`: a bibtex-to-markdown
converter consisting of a regular-expression entry extractor
(`parse_bibtex_entry`, source lines 13 to 62) and a record builder
(`build_publications`, source lines 65 to 281).

The Python functions are shallowly embedded as executable Lean functions over
`String` and `List Char`.  File contents are passed as strings instead of file
names; the configuration document is passed as association lists in the order
the document lists the keys, matching the insertion order of a Python dict.
-/

namespace BibtexBuild

/-- The opening brace character, `"{"` in the source. -/
def lbrace : Char := Char.ofNat 123

/-- The closing brace character, `"}"` in the source. -/
def rbrace : Char := Char.ofNat 125

/-- One-character string holding an opening brace. -/
def sLb : String := String.mk [lbrace]

/-- One-character string holding a closing brace. -/
def sRb : String := String.mk [rbrace]

/-- The single-quote character used by Python `repr` of strings. -/
def squoteS : String := String.mk [Char.ofNat 39]

/-- Python whitespace as stripped by `str.strip()` and matched by the regex
class `\s` (the ASCII characters; the inputs considered are ASCII). -/
def isPyWs (c : Char) : Bool :=
  c = ' ' || c = '\t' || c = '\n' || c = '\x0d' || c = '\x0b' || c = '\x0c'

/-- The regex class `\w` (ASCII fragment; the inputs considered are ASCII). -/
def isWordC (c : Char) : Bool := c.isAlphanum || c = '_'

/-- Drop Python whitespace from the end of a character list. -/
def dropWsEnd (l : List Char) : List Char := (l.reverse.dropWhile isPyWs).reverse

/-- Python `str.strip()` with no arguments, on a character list. -/
def pyStripL (l : List Char) : List Char := dropWsEnd (l.dropWhile isPyWs)

/-- Python `str.strip()` with no arguments. -/
def pyStrip (s : String) : String := String.mk (pyStripL s.data)

/-- The character set of `str.strip(' {}')` in the source (lines 53 and 145). -/
def isSpBrace (c : Char) : Bool := c = ' ' || c = lbrace || c = rbrace

/-- Python `str.strip(' {}')` on a character list. -/
def stripSpBraceL (l : List Char) : List Char :=
  ((l.dropWhile isSpBrace).reverse.dropWhile isSpBrace).reverse

/-- Python substring containment `sub in s` for a nonempty pattern. -/
def occurs (pat : List Char) : List Char → Bool
  | [] => pat.isPrefixOf []
  | c :: t => pat.isPrefixOf (c :: t) || occurs pat t

/-- Worker for `splitOnSub`; the fuel bounds the number of steps and
`l.length + 1` is always enough because every step consumes a character. -/
def splitOnSubAux (sep : List Char) : Nat → List Char → List Char → List (List Char)
  | 0, acc, l => [acc ++ l]
  | fuel + 1, acc, l =>
    if sep ≠ [] ∧ sep.isPrefixOf l then
      acc :: splitOnSubAux sep fuel [] (l.drop sep.length)
    else
      match l with
      | [] => [acc]
      | c :: t => splitOnSubAux sep fuel (acc ++ [c]) t

/-- Python `str.split(sep)` for a nonempty separator: split at every
non-overlapping occurrence, scanning left to right. -/
def splitOnSub (sep l : List Char) : List (List Char) :=
  splitOnSubAux sep (l.length + 1) [] l

/-- Worker for `replaceAll`, fueled like `splitOnSubAux`. -/
def replaceAllAux (pat rep : List Char) : Nat → List Char → List Char
  | 0, l => l
  | fuel + 1, l =>
    if pat ≠ [] ∧ pat.isPrefixOf l then
      rep ++ replaceAllAux pat rep fuel (l.drop pat.length)
    else
      match l with
      | [] => []
      | c :: t => c :: replaceAllAux pat rep fuel t

/-- Python `str.replace(pat, rep)` for a nonempty pattern: replace every
non-overlapping occurrence, scanning left to right. -/
def replaceAll (pat rep l : List Char) : List Char :=
  replaceAllAux pat rep (l.length + 1) l

/-- The two-space pattern of the whitespace-collapsing loop (source line 57). -/
def doubleSpace : List Char := [' ', ' ']

/-- Worker for `collapseSpaces`; every round with an occurrence shortens the
list, so `l.length + 1` rounds always reach the fixpoint. -/
def collapseSpacesAux : Nat → List Char → List Char
  | 0, l => l
  | fuel + 1, l =>
    if occurs doubleSpace l then collapseSpacesAux fuel (replaceAll doubleSpace [' '] l)
    else l

/-- The loop `while '  ' in author: author = author.replace('  ', ' ')`
(source lines 57 to 58). -/
def collapseSpaces (l : List Char) : List Char := collapseSpacesAux (l.length + 1) l

/-- The comma inversion `' '.join(reversed(author.split(',')))` applied when a
name contains a comma (source lines 54 to 56); `firstnamefirst` keeps its
default value `True`, which is how `build_publications` calls the parser. -/
def invertName (a : List Char) : List Char :=
  if a.contains ',' then List.intercalate [' '] (splitOnSub [','] a).reverse
  else a

/-- Processing of one name produced by the split on `'and'`: optional comma
inversion, space collapsing, and `strip()` (source lines 54 to 59). -/
def processAuthor1 (a : List Char) : List Char :=
  pyStripL (collapseSpaces (invertName a))

/-- Author post-processing (source lines 51 to 60): the raw field is stripped
of surrounding spaces and braces and split on every occurrence of the bare
substring `'and'`; each part is then processed by `processAuthor1`. -/
def processAuthors (raw : String) : List String :=
  ((splitOnSub "and".data (stripSpBraceL raw.data)).map processAuthor1).map String.mk

/-- Greedy matcher for the value part `(?:{[^}]+}|[^{}]+)+` of the entry
pattern (source line 35), returning the consumed characters and the rest.
The two alternatives start with disjoint characters and every character run
is maximal, so the greedy backtracking semantics of the regex engine and this
functional matcher agree: a failed iteration simply stops the repetition. -/
def matchVs : Nat → List Char → List Char × List Char
  | 0, l => ([], l)
  | fuel + 1, l =>
    match l with
    | [] => ([], [])
    | c :: t =>
      if c = lbrace then
        let inner := t.takeWhile (fun d => d != rbrace)
        let rest := t.dropWhile (fun d => d != rbrace)
        if inner = [] then ([], l)
        else
          match rest with
          | d :: rest2 =>
            let (cs, r) := matchVs fuel rest2
            (c :: (inner ++ d :: cs), r)
          | [] => ([], l)
      else if c = rbrace then ([], l)
      else
        let run := l.takeWhile (fun d => d != lbrace && d != rbrace)
        let rest := l.dropWhile (fun d => d != lbrace && d != rbrace)
        let (cs, r) := matchVs fuel rest
        (run ++ cs, r)

/-- One iteration of the option group ` *,\s*\w+ * = *{V}` of the entry
pattern (source line 35): `none` when the iteration does not match at the
current position.  Note the pattern ` * = ` requires at least one space
before the equals sign. -/
def matchOption1 (l : List Char) : Option (List Char × List Char) :=
  let sp0 := l.takeWhile (fun c => c == ' ')
  let r1 := l.dropWhile (fun c => c == ' ')
  match r1 with
  | c1 :: r2 =>
    if c1 = ',' then
      let ws := r2.takeWhile isPyWs
      let r3 := r2.dropWhile isPyWs
      let w := r3.takeWhile isWordC
      let r4 := r3.dropWhile isWordC
      if w = [] then none
      else
        let sp1 := r4.takeWhile (fun c => c == ' ')
        let r5 := r4.dropWhile (fun c => c == ' ')
        if sp1 = [] then none
        else
          match r5 with
          | c2 :: r6 =>
            if c2 = '=' then
              let sp2 := r6.takeWhile (fun c => c == ' ')
              let r7 := r6.dropWhile (fun c => c == ' ')
              match r7 with
              | c :: r8 =>
                if c = lbrace then
                  let (vs, r9) := matchVs (r8.length + 1) r8
                  if vs = [] then none
                  else
                    match r9 with
                    | d :: r10 =>
                      if d = rbrace then
                        some (sp0 ++ c1 :: (ws ++ w ++ sp1 ++ c2 :: (sp2 ++ c :: (vs ++ [d]))), r10)
                      else none
                    | [] => none
                else none
              | [] => none
            else none
          | [] => none
    else none
  | [] => none

/-- Worker for `matchOptions`; every successful iteration consumes at least
the comma, so `l.length + 1` iterations always suffice. -/
def matchOptionsAux : Nat → List Char → List Char × List Char
  | 0, l => ([], l)
  | fuel + 1, l =>
    match matchOption1 l with
    | none => ([], l)
    | some (c, r) =>
      let (cs, r2) := matchOptionsAux fuel r
      (c ++ cs, r2)

/-- The greedy repetition `(?: *,\s*\w+ * = *{V})+` of the entry pattern,
except that emptiness (the `+`) is checked by the caller. -/
def matchOptions (l : List Char) : List Char × List Char :=
  matchOptionsAux (l.length + 1) l

/-- Attempt of the full anchored entry pattern
`@(?P<type>[a-z]+) *{ *KEY(?P<options>(?: *,\s*\w+ * = *{V})+)` at one
position (source line 35), returning the two captured groups. -/
def tryMatchAt (key : List Char) (l : List Char) : Option (List Char × List Char) :=
  match l with
  | c0 :: r1 =>
    if c0 = '@' then
      let ty := r1.takeWhile Char.isLower
      let r2 := r1.dropWhile Char.isLower
      if ty = [] then none
      else
        match r2.dropWhile (fun c => c == ' ') with
        | c :: r3 =>
          if c = lbrace then
            let r4 := r3.dropWhile (fun c => c == ' ')
            if key.isPrefixOf r4 then
              let (opts, _) := matchOptions (r4.drop key.length)
              if opts = [] then none else some (ty, opts)
            else none
          else none
        | [] => none
    else none
  | [] => none

/-- The `re.search` scan under `re.MULTILINE`: the anchored pattern is tried
at the start of the text and after every newline, leftmost success first. -/
def searchBibAux (key : List Char) : Bool → List Char → Option (List Char × List Char)
  | _, [] => none
  | atLineStart, c :: t =>
    if atLineStart then
      match tryMatchAt key (c :: t) with
      | some r => some r
      | none => searchBibAux key (c == '\n') t
    else searchBibAux key (c == '\n') t

/-- `re.search(pattern, text, flags=re.MULTILINE)` for the entry pattern
(source line 36). -/
def searchBib (key text : List Char) : Option (List Char × List Char) :=
  searchBibAux key true text

/-- Drop the trailing run of plain spaces. -/
def dropSpacesEnd (l : List Char) : List Char :=
  (l.reverse.dropWhile (fun d => d == ' ')).reverse

/-- Worker for `splitEq`, walking to the first equals sign. -/
def splitEqAux : List Char → List Char → Option (List Char × List Char)
  | _, [] => none
  | acc, c :: t =>
    if c = '=' then some (dropSpacesEnd acc, t.dropWhile (fun d => d == ' '))
    else splitEqAux (acc ++ [c]) t

/-- `re.split(' *= *', fragment, maxsplit=1)` (source line 44): the leftmost
match of the separator pattern is the space run around the first equals sign;
`none` models the length-one result used by the `continue` at line 46. -/
def splitEq (l : List Char) : Option (List Char × List Char) := splitEqAux [] l

/-- Python slicing `[1:-1]` (source line 48). -/
def dropEnds (l : List Char) : List Char := (l.drop 1).dropLast

/-- A value of the parsed bibtex dictionary: every field holds a string,
except `author`, which is replaced by a list of strings (source line 60). -/
inductive FieldVal where
  | str (s : String)
  | list (l : List String)
deriving DecidableEq

/-- Assignment `d[k] = v` on a Python dict modelled as an association list:
an existing key keeps its position and receives the new value, a new key is
appended. -/
def dinsert (d : List (String × α)) (k : String) (v : α) : List (String × α) :=
  if d.any (fun p => p.1 == k) then d.map (fun p => if p.1 == k then (k, v) else p)
  else d ++ [(k, v)]

/-- Lookup in a Python dict modelled as an association list. -/
def lookupF (d : List (String × α)) (k : String) : Option α :=
  (d.find? (fun p => p.1 == k)).map Prod.snd

/-- Python `k in d` for a dict modelled as an association list. -/
def hasKey (d : List (String × α)) (k : String) : Bool := (lookupF d k).isSome

/-- The error outcomes of the script, one constructor per raise site. -/
inductive BErr where
  /-- `KeyError` raised at source line 38: the entry key was not found. -/
  | keyNotFound (key : String)
  /-- `KeyError` re-raised at source lines 105 to 106 for a missing required
  configuration key (not raised inside the per-publication loop). -/
  | configError (key : String)
  /-- `ValueError` raised at source lines 128 to 133: only the abstract was
  obtained from the bibtex file. -/
  | malformed
  /-- `ValueError` of the form `Cannot find "f" information` (source lines
  147, 169, 190, 202 and 236). -/
  | missingField (f : String)
  /-- a bare `KeyError` from a dict lookup (source lines 213, 214, 254, 255). -/
  | keyError (k : String)
  /-- a `TypeError` or `AttributeError` from an ill-typed value, for example
  iterating over the int `0` assigned at source line 181. -/
  | typeError
deriving DecidableEq

/-- The body of the key-value loop (source lines 43 to 48): split one
fragment at the first equals sign, skip it when there is none, otherwise
strip the key and store the value without its outermost braces. -/
def addFragment (d : List (String × FieldVal)) (frag : List Char) :
    List (String × FieldVal) :=
  match splitEq frag with
  | none => d
  | some (kpart, vpart) =>
    dinsert d (pyStrip (String.mk kpart)) (.str (String.mk (dropEnds (pyStripL vpart))))

/-- Shallow embedding of `parse_bibtex_entry` (source lines 13 to 62).  The
file contents are passed directly instead of a file name; `firstnamefirst`
and `typekey` keep their default values `True` and `"type"`, which is how
`build_publications` calls the function at line 126.  Python `.lower()` is
modelled character by character, and the key is inserted into the pattern
verbatim, as in the source — for the word-character keys considered here it
matches literally. -/
def parse_bibtex_entry (content : String) (bibtexkey : String) :
    Except BErr (List (String × FieldVal)) :=
  match searchBib bibtexkey.data content.data with
  | none => .error (.keyNotFound bibtexkey)
  | some (ty, opts) =>
    let d0 : List (String × FieldVal) := [("type", .str (String.mk (ty.map Char.toLower)))]
    let d := (splitOnSub [',', '\n'] opts).foldl addFragment d0
    match lookupF d "author" with
    | some (.str s) => .ok (dinsert d "author" (.list (processAuthors s)))
    | _ => .ok d

/-- A value appearing in the parsed configuration document (TOML or JSON):
strings, integers, booleans, lists and the JSON null. -/
inductive CVal where
  | str (s : String)
  | int (n : Int)
  | bool (b : Bool)
  | list (l : List CVal)
  | none

/-- Python `v is None`. -/
def cvalIsNone : CVal → Bool
  | .none => true
  | _ => false

mutual

/-- Python `repr` of a configuration value (string escaping inside `repr` is
not modelled; the values exercised contain no quotes). -/
def pyRepr : CVal → String
  | .str s => squoteS ++ s ++ squoteS
  | .int n => toString n
  | .bool true => "True"
  | .bool false => "False"
  | .none => "None"
  | .list l => "[" ++ pyReprList l ++ "]"

/-- Comma-separated `repr` of list elements, as printed by Python. -/
def pyReprList : List CVal → String
  | [] => ""
  | [v] => pyRepr v
  | v :: vs => pyRepr v ++ ", " ++ pyReprList vs

end

/-- Python `str(v)` (also `'{}'.format(v)`): the string itself for strings,
`repr` for everything else. -/
def pyStr : CVal → String
  | .str s => s
  | v => pyRepr v

/-- Python `str(v)` for a value of the parsed bibtex dictionary. -/
def pyStrField : FieldVal → String
  | .str s => s
  | .list l =>
    "[" ++ String.intercalate ", " (l.map (fun s => squoteS ++ s ++ squoteS)) ++ "]"

/-- A value flowing into the date computation (source lines 154 to 160):
`dict.get` returns either the stored string (or author list) or the supplied
int default. -/
inductive PyVal where
  | vstr (s : String)
  | vint (n : Int)
  | vlist (l : List String)
deriving DecidableEq

/-- Decimal reading of a digit list. -/
def digitsToNat (l : List Char) : Nat := l.foldl (fun n c => n * 10 + (c.toNat - 48)) 0

/-- Python `int(s)` on a string: surrounding whitespace allowed, optional
sign, at least one digit; `none` models the `ValueError` (digit grouping with
underscores is not modelled). -/
def pyIntStr (s : String) : Option Int :=
  match pyStripL s.data with
  | '+' :: ds => if ds ≠ [] ∧ ds.all Char.isDigit then some (digitsToNat ds) else Option.none
  | '-' :: ds => if ds ≠ [] ∧ ds.all Char.isDigit then some (-(digitsToNat ds : Int)) else Option.none
  | ds => if ds ≠ [] ∧ ds.all Char.isDigit then some (digitsToNat ds) else Option.none

/-- Python `int(v)`: ints pass through, strings are parsed, and `int` of a
list raises a `TypeError`; both failures are caught at source line 159. -/
def pyIntOf : PyVal → Option Int
  | .vstr s => pyIntStr s
  | .vint n => some n
  | .vlist _ => Option.none

/-- Python `'{}'.format(v)` for a date component (source line 160). -/
def fmtPyVal : PyVal → String
  | .vstr s => s
  | .vint n => toString n
  | .vlist l => pyStrField (.list l)

/-- Gregorian leap year, as used by `datetime`. -/
def isLeapYear (y : Int) : Bool := (y % 4 == 0 && y % 100 != 0) || y % 400 == 0

/-- Number of days in a month, as used by `datetime`. -/
def daysInMonth (y m : Int) : Int :=
  if m = 2 then (if isLeapYear y then 29 else 28)
  else if m = 4 ∨ m = 6 ∨ m = 9 ∨ m = 11 then 30
  else 31

/-- Validity of `datetime.datetime(y, m, d)`: out-of-range arguments raise a
`ValueError`, caught at source line 159. -/
def validDate (y m d : Int) : Bool :=
  decide (1 ≤ y) && decide (y ≤ 9999) && decide (1 ≤ m) && decide (m ≤ 12) &&
    decide (1 ≤ d) && decide (d ≤ daysInMonth y m)

/-- Two-digit zero padding (the argument is between 1 and 31 when used). -/
def pad2 (n : Int) : String := if n < 10 then "0" ++ toString n else toString n

/-- Four-digit zero padding (the argument is between 1 and 9999 when used). -/
def pad4 (n : Int) : String :=
  if n < 10 then "000" ++ toString n
  else if n < 100 then "00" ++ toString n
  else if n < 1000 then "0" ++ toString n
  else toString n

/-- `datetime.datetime(y, m, d).isoformat(timespec='seconds')`: the time
components are all zero (source line 158). -/
def isoDate (y m d : Int) : String :=
  pad4 y ++ "-" ++ pad2 m ++ "-" ++ pad2 d ++ "T00:00:00"

/-- Date resolution (source lines 151 to 160).  `nowYear` stands for
`datetime.datetime.now().year` and `freeParse` for the external free-text
fallback `dateutil.parser.parse(...).isoformat(timespec='seconds')`, which is
treated as an opaque total function of its input string. -/
def resolveDate (ov : List (String × CVal)) (bib : List (String × FieldVal))
    (freeParse : String → String) (nowYear : Int) : String :=
  match lookupF ov "date" with
  | some v => pyStr v
  | Option.none =>
    let year : PyVal := match lookupF bib "year" with
      | some (.str s) => .vstr s
      | some (.list l) => .vlist l
      | Option.none => .vint nowYear
    let month : PyVal := match lookupF bib "month" with
      | some (.str s) => .vstr s
      | some (.list l) => .vlist l
      | Option.none => .vint 1
    let day : PyVal := match lookupF bib "day" with
      | some (.str s) => .vstr s
      | some (.list l) => .vlist l
      | Option.none => .vint 1
    match pyIntOf year, pyIntOf month, pyIntOf day with
    | some y, some m, some d =>
      if validDate y m d then isoDate y m d
      else freeParse (fmtPyVal month ++ " " ++ fmtPyVal day ++ " " ++ fmtPyVal year)
    | _, _, _ => freeParse (fmtPyVal month ++ " " ++ fmtPyVal day ++ " " ++ fmtPyVal year)

/-- Title resolution (source lines 142 to 147): override, else the bibtex
title stripped of surrounding spaces and braces, else a `ValueError`. -/
def resolveTitle (ov : List (String × CVal)) (bib : List (String × FieldVal)) :
    Except BErr String :=
  match lookupF ov "title" with
  | some v => .ok (pyStr v)
  | Option.none =>
    match lookupF bib "title" with
    | some (.str s) => .ok (String.mk (stripSpBraceL s.data))
    | some (.list _) => .error .typeError
    | Option.none => .error (.missingField "title")

/-- Checks that every list element is a string, as `str.join` requires. -/
def cvalStrings : List CVal → Option (List String)
  | [] => some []
  | .str s :: t => (cvalStrings t).map (s :: ·)
  | _ => Option.none

/-- Author resolution (source lines 164 to 170): override, else the parsed
author list, else a `ValueError`.  The following `'", "'.join(authors)`
iterates characters when the value is a single string and raises a
`TypeError` on non-string list elements or non-iterable values. -/
def resolveAuthors (ov : List (String × CVal)) (bib : List (String × FieldVal)) :
    Except BErr (List String) :=
  match lookupF ov "authors" with
  | some (.list l) =>
    match cvalStrings l with
    | some ss => .ok ss
    | Option.none => .error .typeError
  | some (.str s) => .ok (s.data.map (fun c => String.mk [c]))
  | some _ => .error .typeError
  | Option.none =>
    match lookupF bib "author" with
    | some (.list l) => .ok l
    | some (.str s) => .ok (s.data.map (fun c => String.mk [c]))
    | Option.none => .error (.missingField "authors")

/-- Python `isinstance(v, int)`; note that Python booleans are ints. -/
def cvalIsInt : CVal → Bool
  | .int _ => true
  | .bool _ => true
  | _ => false

/-- Publication-type resolution (source lines 173 to 182).  When the override
value is not an int, line 177 assigns the whole per-publication override
mapping to `publication_types`, and iterating a mapping yields its keys.
When the bibtex type is missing from the mapping, line 181 assigns the plain
int `0`, and iterating an int at line 182 raises a `TypeError`. -/
def resolvePubTypes (ov : List (String × CVal)) (bib : List (String × FieldVal))
    (ptm : List (String × CVal)) : Except BErr (List String) :=
  match lookupF ov "publication_types" with
  | some v => if cvalIsInt v then .ok [pyStr v] else .ok (ov.map Prod.fst)
  | Option.none =>
    match lookupF bib "type" with
    | some (.str t) =>
      match lookupF ptm t with
      | some code => .ok [pyStr code]
      | Option.none => .error .typeError
    | some (.list _) => .error .typeError
    | Option.none => .error (.keyError "type")

/-- Venue resolution (source lines 185 to 190): override, else the journal
wrapped in `in *...*`, else a `ValueError` (whose message says
`"publications"` in the source). -/
def resolvePublication (ov : List (String × CVal)) (bib : List (String × FieldVal)) :
    Except BErr String :=
  match lookupF ov "publication" with
  | some v => .ok (pyStr v)
  | Option.none =>
    match lookupF bib "journal" with
    | some fv => .ok ("in *" ++ pyStrField fv ++ "*")
    | Option.none => .error (.missingField "publications")

/-- Abstract resolution (source lines 197 to 203): override (written as-is),
else the bibtex abstract with double quotes escaped, else a `ValueError`;
either way the literal sequence `{\%}` is then normalized to `%`.  Calling
`.replace` on a non-string raises an `AttributeError`. -/
def resolveAbstract (ov : List (String × CVal)) (bib : List (String × FieldVal)) :
    Except BErr String :=
  let base : Except BErr String :=
    match lookupF ov "abstract" with
    | some (.str s) => .ok s
    | some _ => .error .typeError
    | Option.none =>
      match lookupF bib "abstract" with
      | some (.str s) => .ok (String.mk (replaceAll ['"'] ['\\', '"'] s.data))
      | some (.list _) => .error .typeError
      | Option.none => .error (.missingField "abstract")
  match base with
  | .ok s => .ok (String.mk (replaceAll [lbrace, '\\', '%', rbrace] ['%'] s.data))
  | .error e => .error e

/-- The lookup `{True: 'true', False: 'false'}[v]` (source lines 214 and
255): booleans map to the words, values equal to `1` or `0` hash like `True`
and `False`, anything else raises a bare `KeyError`. -/
def boolWord : CVal → Except BErr String
  | .bool true => .ok "true"
  | .bool false => .ok "false"
  | .int n =>
    if n = 1 then .ok "true"
    else if n = 0 then .ok "false"
    else .error (.keyError (toString n))
  | v => .error (.keyError (pyStr v))

/-- Resolution of the `featured` and `math` flags (source lines 210 to 214
and 251 to 255, two identical blocks): override, else `defaults[k]` — a bare
`KeyError` when the defaults table lacks the key — then `boolWord`. -/
def resolveBoolField (k : String) (ov df : List (String × CVal)) : Except BErr String :=
  match lookupF ov k with
  | some v => boolWord v
  | Option.none =>
    match lookupF df k with
    | some v => boolWord v
    | Option.none => .error (.keyError k)

/-- Resolution of the `projects` and `tags` lists (source lines 217 to 228):
override else empty; each element is rendered with `'"{}"'.format`, which
accepts any value, but iterating a non-iterable raises a `TypeError` and a
string iterates its characters. -/
def resolveStrList (k : String) (ov : List (String × CVal)) : Except BErr (List String) :=
  match lookupF ov k with
  | some (.list l) => .ok (l.map pyStr)
  | some (.str s) => .ok (s.data.map (fun c => String.mk [c]))
  | some _ => .error .typeError
  | Option.none => .ok []

/-- DOI resolution (source lines 231 to 236): override, else the bibtex doi,
else a `ValueError`. -/
def resolveDoi (ov : List (String × CVal)) (bib : List (String × FieldVal)) :
    Except BErr CVal :=
  match lookupF ov "doi" with
  | some v => .ok v
  | Option.none =>
    match lookupF bib "doi" with
    | some (.str s) => .ok (.str s)
    | some (.list l) => .ok (.list (l.map CVal.str))
    | Option.none => .error (.missingField "doi")

/-- The `url_*` entries of the override, in document order (source line 241). -/
def urlPairs (ov : List (String × CVal)) : List (String × CVal) :=
  ov.filter (fun p => "url_".isPrefixOf p.1)

/-- Short-circuiting glue: on an error the text written so far is kept and
the error recorded, mirroring a raise inside the `with open(...)` block. -/
def withField (acc : String) (r : Except BErr α) (k : α → String × Option BErr) :
    String × Option BErr :=
  match r with
  | .error e => (acc, some e)
  | .ok x => k x

/-- Quoted, comma-joined rendering `'", "'.join(xs)` placed inside `["..."]`. -/
def quotedList (xs : List String) : String :=
  "[\"" ++ String.intercalate "\", \"" xs ++ "\"]"

/-- The body writing `index.md` for one publication (source lines 138 to
257).  Returns the text written so far together with the error that aborted
the write, if any; an aborted write keeps its partial text, as the file is
closed with the lines written before the raise. -/
def buildIndex (header footer : String) (defaults ptm : List (String × CVal))
    (urlPdfUseDoi : Bool) (ov : List (String × CVal)) (bib : List (String × FieldVal))
    (freeParse : String → String) (nowYear : Int) : String × Option BErr :=
  let acc := header
  withField acc (resolveTitle ov bib) fun title =>
  let acc := acc ++ "title = \"" ++ title ++ "\"\n"
  let acc := acc ++ "date = \"" ++ resolveDate ov bib freeParse nowYear ++ "\"\n"
  withField acc (resolveAuthors ov bib) fun authors =>
  let acc := acc ++ "authors = " ++ quotedList authors ++ "\n"
  withField acc (resolvePubTypes ov bib ptm) fun ptypes =>
  let acc := acc ++ "publication_types = " ++ quotedList ptypes ++ "\n"
  withField acc (resolvePublication ov bib) fun publication =>
  let acc := acc ++ "publication = \"" ++ publication ++ "\"\n"
  let acc := acc ++ (match lookupF ov "publication_short" with
    | some v => "publication_short = \"" ++ pyStr v ++ "\"\n"
    | Option.none => "")
  withField acc (resolveAbstract ov bib) fun abstract =>
  let acc := acc ++ "abstract = \"" ++ abstract ++ "\"\n"
  let acc := acc ++ (match lookupF ov "abstract_short" with
    | some v => "abstract_short = \"" ++ pyStr v ++ "\"\n"
    | Option.none => "")
  withField acc (resolveBoolField "featured" ov defaults) fun featured =>
  let acc := acc ++ "featured = " ++ featured ++ "\n"
  withField acc (resolveStrList "projects" ov) fun projects =>
  let acc := acc ++ "projects = ["
    ++ String.intercalate ", " (projects.map (fun s => "\"" ++ s ++ "\"")) ++ "]\n"
  withField acc (resolveStrList "tags" ov) fun tags =>
  let acc := acc ++ "tags = ["
    ++ String.intercalate ", " (tags.map (fun s => "\"" ++ s ++ "\"")) ++ "]\n"
  withField acc (resolveDoi ov bib) fun doi =>
  let urls0 := urlPairs ov
  let urls := if hasKey urls0 "url_pdf" = false ∧ urlPdfUseDoi = true ∧ cvalIsNone doi = false
    then urls0 ++ [("url_pdf", CVal.str ("https://doi.org/" ++ pyStr doi))]
    else urls0
  let acc := acc ++ String.join (urls.map (fun p => p.1 ++ " = \"" ++ pyStr p.2 ++ "\"\n"))
  let acc := acc ++ "doi = \"" ++ pyStr doi ++ "\"\n"
  withField acc (resolveBoolField "math" ov defaults) fun math =>
  (acc ++ "math = " ++ math ++ "\n" ++ footer, Option.none)

/-- The `cite.bib` snippet (source lines 260 to 271): a bibtex-like stub with
only the whitelisted keys present in the parsed entry, separated by `, \n`
by the first-flag loop. -/
def buildCite (citekeys : List String) (bib : List (String × FieldVal))
    (bibtexkey : String) : Except BErr String :=
  match lookupF bib "type" with
  | some (.str t) =>
    let present := citekeys.filter (fun k => hasKey bib k)
    let body := String.intercalate ", \n" (present.map (fun k =>
      "    " ++ k ++ " = " ++ sLb ++ pyStrField ((lookupF bib k).getD (.str "")) ++ sRb))
    .ok ("@" ++ t ++ sLb ++ bibtexkey ++ "\n" ++ body ++ "\n" ++ sRb ++ "\n")
  | some (.list _) => .error .typeError
  | Option.none => .error (.keyError "type")

/-- The heuristic check at source line 127: the parsed dictionary has exactly
one entry and contains the key `abstract`. -/
def entryOnlyAbstract (d : List (String × FieldVal)) : Bool :=
  d.length == 1 && hasKey d "abstract"

/-- One iteration of the publication loop (source lines 108 to 271), without
the directory creation and image copy: parse the entry, apply the
abstract-only check, write `index.md`, then write `cite.bib`.  Returns the
index text, the cite text and the error that aborted the iteration, if any. -/
def buildPublication (content bibtexkey : String) (header footer : String)
    (defaults ptm : List (String × CVal)) (urlPdfUseDoi : Bool)
    (ov : List (String × CVal)) (citekeys : List String)
    (freeParse : String → String) (nowYear : Int) :
    String × String × Option BErr :=
  match parse_bibtex_entry content bibtexkey with
  | .error e => ("", "", some e)
  | .ok d =>
    if entryOnlyAbstract d then ("", "", some .malformed)
    else
      match buildIndex header footer defaults ptm urlPdfUseDoi ov d freeParse nowYear with
      | (idx, some e) => (idx, "", some e)
      | (idx, Option.none) =>
        match buildCite citekeys d bibtexkey with
        | .error e => (idx, "", some e)
        | .ok cite => (idx, cite, Option.none)

/-- A structured bibtex entry used to describe well-formed bibliography
texts: a type, a key, and a list of fields. -/
structure BEntry where
  btype : List Char
  bkey : List Char
  fields : List (List Char × List Char)

/-- The `  key = {value}` text of one rendered field, the fragment the
comma-newline split recovers. -/
def fragOf (f : List Char × List Char) : List Char :=
  ' ' :: ' ' :: (f.1 ++ ' ' :: '=' :: ' ' :: lbrace :: (f.2 ++ [rbrace]))

/-- Canonical rendering of one `key = {value}` group of an entry, preceded
by the comma-newline field separator. -/
def renderField (f : List Char × List Char) : List Char :=
  ',' :: '\n' :: fragOf f

/-- Rendering of all option groups of an entry. -/
def renderFields (fs : List (List Char × List Char)) : List Char :=
  (fs.map renderField).flatten

/-- Canonical rendering of a whole entry, closed by its final brace and
followed by a blank line. -/
def renderEntry (e : BEntry) : List Char :=
  '@' :: (e.btype ++ lbrace ::
    (e.bkey ++ renderFields e.fields ++ '\n' :: rbrace :: '\n' :: ['\n']))

/-- Rendering of a bibliography: the concatenation of its entries. -/
def renderBib (bs : List BEntry) : List Char := (bs.map renderEntry).flatten

/-- Fueled check that a value consists of the chunks the value matcher
consumes: brace groups with a nonempty closing-brace-free interior, and
nonempty brace-free runs; the recursion mirrors `matchVs`. -/
def chunksOk : Nat → List Char → Bool
  | 0, _ => false
  | fuel + 1, l =>
    match l with
    | [] => true
    | c :: t =>
      if c = lbrace then
        let inner := t.takeWhile (fun d => d != rbrace)
        let rest := t.dropWhile (fun d => d != rbrace)
        if inner = [] then false
        else
          match rest with
          | _ :: rest2 => chunksOk fuel rest2
          | [] => false
      else if c = rbrace then false
      else chunksOk fuel ((c :: t).dropWhile (fun d => d != lbrace && d != rbrace))

/-- A value is well formed when it is nonempty and the value matcher
consumes it exactly: no stray closing brace, no unterminated inner group. -/
def valueOk (v : List Char) : Bool := !v.isEmpty && chunksOk (v.length + 1) v

/-- Well-formedness of one field: a nonempty word-character key other than
`type`, and a well-formed value none of whose lines starts with an at
sign. -/
def wfField (f : List Char × List Char) : Bool :=
  !f.1.isEmpty && f.1.all isWordC && !(f.1 == "type".data) && valueOk f.2 &&
    !(occurs ['\n', '@'] f.2)

/-- Pairwise distinctness of the field keys. -/
def keysDistinct : List (List Char) → Bool
  | [] => true
  | k :: t => !(t.contains k) && keysDistinct t

/-- Well-formedness of an entry: nonempty lowercase type, nonempty
word-character key, and at least one well-formed field, with distinct
keys. -/
def wfEntry (e : BEntry) : Bool :=
  !e.btype.isEmpty && e.btype.all Char.isLower &&
  !e.bkey.isEmpty && e.bkey.all isWordC &&
  !e.fields.isEmpty && e.fields.all wfField && keysDistinct (e.fields.map Prod.fst)

/-- The dictionary entry the key-value loop stores for one rendered field
before the author pass: the key and the literal value, both as strings. -/
def rawField (f : List Char × List Char) : String × FieldVal :=
  (String.mk f.1, .str (String.mk f.2))

/-- The dictionary entry the specification expects for one field: the
literal value, except that the author field is normalized into a list of
names. -/
def expectedField (f : List Char × List Char) : String × FieldVal :=
  (String.mk f.1,
   if f.1 = "author".data then .list (processAuthors (String.mk f.2))
   else .str (String.mk f.2))

/-- The dictionary the specification expects `parse_bibtex_entry` to
return for an entry: the type field followed by the entry fields in
order. -/
def expectedEntry (e : BEntry) : List (String × FieldVal) :=
  ("type", .str (String.mk e.btype)) :: e.fields.map expectedField

/-- Scan safety of a text chunk: no position inside it is a line start
holding an at sign; the flag tells whether the chunk itself begins at a
line start. -/
def scanSafe : Bool → List Char → Bool
  | _, [] => true
  | flag, c :: t => !(flag && c == '@') && scanSafe (c == '\n') t

/-- The line-start flag after scanning a chunk. -/
def endsNL (flag : Bool) (chunk : List Char) : Bool :=
  match chunk.getLast? with
  | some c => c == '\n'
  | Option.none => flag

/-- The entry of the C1 counterexample: well formed, with an abstract whose
value contains a comma immediately followed by a newline. -/
def c1CexEntry : BEntry :=
  ⟨"article".data, "k1".data, [("title".data, "T".data), ("abstract".data, "Hello,\nworld".data)]⟩

/-- A well-formed entry preceding the target in the C1 witness bibliography. -/
def c1WitPre : BEntry := ⟨"article".data, "k0".data, [("title".data, "A".data)]⟩

/-- The target entry of the C1 witness bibliography. -/
def c1WitE : BEntry :=
  ⟨"misc".data, "key2".data,
   [("title".data, "T1".data), ("author".data, "Doe, Jane and Smith, John".data)]⟩

/-- A trailing entry following the target in the C1 witness bibliography. -/
def c1WitPost : BEntry := ⟨"book".data, "k3".data, [("year".data, "2001".data)]⟩

/-- Override of the C2 failing input: the publication types are overridden
with a list. -/
def c2Ov : List (String × CVal) :=
  [("title", .str "Better Title"), ("publication_types", .list [.str "2"])]

/-- Parsed entry of the C2 failing input. -/
def c2Bib : List (String × FieldVal) :=
  [("type", .str "article"), ("title", .str "Old Title"), ("year", .str "2020"),
   ("author", .list ["Jane Doe"]), ("journal", .str "J"), ("abstract", .str "A"),
   ("doi", .str "10.1/x")]

/-- Type mapping of the C2 failing input: `article` maps to code 5, so any
occurrence of 5 in the output would come from the entry, not the override. -/
def c2Ptm : List (String × CVal) := [("article", .int 5)]

/-- Defaults of the C2 failing input. -/
def c2Df : List (String × CVal) := [("featured", .bool false), ("math", .bool false)]

/-- Parsed entry of the C3 failing input: its type `misc` is absent from the
type mapping. -/
def c3Bib : List (String × FieldVal) :=
  [("type", .str "misc"), ("title", .str "T"), ("year", .str "2020"),
   ("author", .list ["Jane Doe"])]

/-- Type mapping of the C3 failing input, lacking the key `misc`. -/
def c3Ptm : List (String × CVal) := [("article", .int 2)]

/-- Parsed entry of the C9 counterexample: it lacks a `year` field, so the
date line falls back to the current calendar year. -/
def c9Bib : List (String × FieldVal) :=
  [("type", .str "article"), ("title", .str "T"), ("author", .list ["Jane Doe"]),
   ("journal", .str "J"), ("abstract", .str "A"), ("doi", .str "10.1/x")]

/-- Defaults of the C9 counterexample. -/
def c9Df : List (String × CVal) := [("featured", .bool false), ("math", .bool false)]

/-- Parsed entry of the C8 witness: no `doi` field. -/
def c8Bib : List (String × FieldVal) :=
  [("type", .str "article"), ("title", .str "T"), ("year", .str "2020"),
   ("author", .list ["Jane Doe"]), ("journal", .str "J"), ("abstract", .str "A")]

/-- Defaults of the C8 witness. -/
def c8Df : List (String × CVal) := [("featured", .bool false), ("math", .bool false)]

/-- Parsed entry of the C10 witness. -/
def c10Bib : List (String × FieldVal) :=
  [("type", .str "article"), ("title", .str "T"), ("year", .str "2020"),
   ("author", .list ["Jane Doe"]), ("journal", .str "J"), ("abstract", .str "A"),
   ("doi", .str "10.1/x")]

/-- Parsed entry of the C9 witness: it contains a `year` field. -/
def c9YearBib : List (String × FieldVal) :=
  [("type", .str "article"), ("title", .str "T"), ("year", .str "2020"),
   ("author", .list ["Jane Doe"]), ("journal", .str "J"), ("abstract", .str "A"),
   ("doi", .str "10.1/x")]

theorem occurs_iff {pat l : List Char} : occurs pat l = true ↔ pat <:+: l := by
  induction l with
  | nil =>
    simp only [occurs, List.isPrefixOf_iff_prefix]
    rw [List.prefix_nil, List.infix_nil]
  | cons c t ih =>
    simp only [occurs, Bool.or_eq_true, List.isPrefixOf_iff_prefix, ih]
    exact (List.infix_cons_iff).symm

theorem occurs_of_within {pat m l : List Char} (h : occurs pat m = true) (hm : m <:+: l) :
    occurs pat l = true :=
  occurs_iff.mpr (occurs_iff.mp h |>.trans hm)

theorem stripSpBraceL_within (l : List Char) : stripSpBraceL l <:+: l := by
  unfold stripSpBraceL
  have h1 : l.dropWhile isSpBrace <:+ l := List.dropWhile_suffix _
  have h2 : (l.dropWhile isSpBrace).reverse.dropWhile isSpBrace <:+
      (l.dropWhile isSpBrace).reverse := List.dropWhile_suffix _
  have h3 : ((l.dropWhile isSpBrace).reverse.dropWhile isSpBrace).reverse <+:
      l.dropWhile isSpBrace := by
    rw [← List.reverse_suffix]
    simpa using h2
  exact h3.isInfix.trans h1.isInfix

theorem splitOnSubAux_no_occ {sep : List Char} (hsep : sep ≠ []) :
    ∀ fuel acc l, l.length < fuel → occurs sep l = false →
      splitOnSubAux sep fuel acc l = [acc ++ l] := by
  intro fuel
  induction fuel with
  | zero => intro acc l h; omega
  | succ n ih =>
    intro acc l hlen hocc
    match l with
    | [] =>
      have : sep.isPrefixOf [] = false := by
        cases sep with
        | nil => exact absurd rfl hsep
        | cons a s => rfl
      simp [splitOnSubAux, this]
    | c :: t =>
      have hocc' : occurs sep t = false := by
        have := hocc
        unfold occurs at this
        exact (Bool.or_eq_false_iff.mp this).2
      have hpre : sep.isPrefixOf (c :: t) = false := by
        have := hocc
        unfold occurs at this
        exact (Bool.or_eq_false_iff.mp this).1
      have hcond : ¬(sep ≠ [] ∧ sep.isPrefixOf (c :: t)) := by
        intro hc
        rw [hpre] at hc
        exact Bool.false_ne_true hc.2
      unfold splitOnSubAux
      rw [if_neg hcond]
      show splitOnSubAux sep n (acc ++ [c]) t = [acc ++ c :: t]
      rw [ih (acc ++ [c]) t (by simpa using Nat.lt_of_succ_lt_succ hlen) hocc']
      simp

theorem splitOnSub_no_occ {sep l : List Char} (hsep : sep ≠ [])
    (hocc : occurs sep l = false) : splitOnSub sep l = [l] := by
  unfold splitOnSub
  rw [splitOnSubAux_no_occ hsep _ [] l (Nat.lt_succ_self _) hocc]
  simp

theorem mem_of_mem_stripSpBraceL {c : Char} {l : List Char}
    (h : c ∈ stripSpBraceL l) : c ∈ l :=
  (stripSpBraceL_within l).subset h

/-- C5: the extractor splits the author field at every occurrence of the
bare substring `and`, not only at the separator token ` and `: the single
author name `Alexander Smith`, which contains no ` and ` token, is split
into the two names `Alex` and `er Smith`. -/
theorem c5_and_substring_bug :
    occurs " and ".data "Alexander Smith".data = false ∧
      processAuthors "Alexander Smith" = ["Alex", "er Smith"] :=
  ⟨by decide, by decide⟩

/-- C6 counterexample: the author field `Alexander` contains no comma, yet
normalization does not return it trimmed and collapsed — the bare substring
`and` inside the name causes a split into `Alex` and `er`. -/
theorem c6_counterexample :
    ("Alexander".data.contains ',') = false ∧
      processAuthors "Alexander" = ["Alex", "er"] ∧
      processAuthors "Alexander" ≠ ["Alexander"] :=
  ⟨by decide, by decide, by decide⟩

/-- C6 (amended): the field `Doe, Jane and Smith, John` normalizes to
`["Jane Doe", "John Smith"]`; and every author field containing no comma and
no occurrence of the substring `and` is passed through as a single name,
stripped of surrounding spaces and braces, with double spaces collapsed and
whitespace trimmed. -/
theorem c6_author_roundtrip (s : String)
    (hc : s.data.contains ',' = false)
    (ha : occurs "and".data s.data = false) :
    processAuthors "Doe, Jane and Smith, John" = ["Jane Doe", "John Smith"] ∧
      processAuthors s = [String.mk (pyStripL (collapseSpaces (stripSpBraceL s.data)))] := by
  constructor
  · decide
  · unfold processAuthors
    have hocc : occurs "and".data (stripSpBraceL s.data) = false := by
      cases h : occurs "and".data (stripSpBraceL s.data) with
      | false => rfl
      | true => rw [occurs_of_within h (stripSpBraceL_within _)] at ha; cases ha
    rw [splitOnSub_no_occ (by decide) hocc]
    have hnc : (',' : Char) ∉ stripSpBraceL s.data := by
      intro hmem
      have : (',' : Char) ∈ s.data := mem_of_mem_stripSpBraceL hmem
      rw [(by simpa using this : s.data.contains ',' = true)] at hc
      cases hc
    simp [processAuthor1, invertName, hnc]

/-- C6 witness: the second part of the round-trip applied to the concrete
comma-free field `Jane Doe`. -/
theorem c6_author_roundtrip_witness :
    processAuthors "Doe, Jane and Smith, John" = ["Jane Doe", "John Smith"] ∧
      processAuthors "Jane Doe" =
        [String.mk (pyStripL (collapseSpaces (stripSpBraceL "Jane Doe".data)))] :=
  c6_author_roundtrip "Jane Doe" (by decide) (by decide)

/-- C7: with no override date, a year of `2021` and no month or day fields,
the resolved date is exactly `2021-01-01T00:00:00`. -/
theorem c7_default_date (ov : List (String × CVal)) (bib : List (String × FieldVal))
    (fp : String → String) (ny : Int)
    (hdate : lookupF ov "date" = Option.none)
    (hy : lookupF bib "year" = some (.str "2021"))
    (hm : lookupF bib "month" = Option.none)
    (hd : lookupF bib "day" = Option.none) :
    resolveDate ov bib fp ny = "2021-01-01T00:00:00" := by
  unfold resolveDate
  rw [hdate, hy, hm, hd]
  rfl

/-- C7 witness: the default-date rule evaluated on a concrete entry. -/
theorem c7_default_date_witness :
    resolveDate [] [("year", FieldVal.str "2021")] (fun _ => "") 1999 =
      "2021-01-01T00:00:00" :=
  c7_default_date [] [("year", FieldVal.str "2021")] (fun _ => "") 1999 rfl rfl rfl rfl

/-- C2: when the override assigns `publication_types` a list, line 177 of the
source stores the whole override mapping instead of the override value, and
the rendered line lists the override keys `title, publication_types` instead
of the overridden value `2`; the rendered output therefore does not reflect
the override value. -/
theorem c2_override_shadow_bug :
    resolvePubTypes c2Ov c2Bib c2Ptm = .ok ["title", "publication_types"] ∧
      occurs "publication_types = [\"title\", \"publication_types\"]".data
        (buildIndex "" "" c2Df c2Ptm false c2Ov c2Bib (fun _ => "") 2024).1.data = true ∧
      (buildIndex "" "" c2Df c2Ptm false c2Ov c2Bib (fun _ => "") 2024).2 = Option.none :=
  ⟨by rfl, by decide, by rfl⟩

/-- C3: a publication with no `publication_types` override whose entry type
`misc` is absent from the type mapping does not render `["0"]`: line 181
assigns the plain int `0` and the join at line 182 raises a `TypeError`. -/
theorem c3_uncategorized_bug :
    resolvePubTypes [] c3Bib c3Ptm = .error .typeError ∧
      (buildIndex "" "" [] c3Ptm false [] c3Bib (fun _ => "") 2024).2 =
        some BErr.typeError :=
  ⟨by rfl, by rfl⟩

theorem resolveTitle_ne_malformed (ov : List (String × CVal))
    (bib : List (String × FieldVal)) : resolveTitle ov bib ≠ .error .malformed := by
  unfold resolveTitle
  repeat' split
  all_goals simp

theorem resolveAuthors_ne_malformed (ov : List (String × CVal))
    (bib : List (String × FieldVal)) : resolveAuthors ov bib ≠ .error .malformed := by
  unfold resolveAuthors
  repeat' split
  all_goals simp

theorem resolvePubTypes_ne_malformed (ov : List (String × CVal))
    (bib : List (String × FieldVal)) (ptm : List (String × CVal)) :
    resolvePubTypes ov bib ptm ≠ .error .malformed := by
  unfold resolvePubTypes
  repeat' split
  all_goals simp

theorem resolvePublication_ne_malformed (ov : List (String × CVal))
    (bib : List (String × FieldVal)) : resolvePublication ov bib ≠ .error .malformed := by
  unfold resolvePublication
  repeat' split
  all_goals simp

theorem resolveAbstract_ne_malformed (ov : List (String × CVal))
    (bib : List (String × FieldVal)) : resolveAbstract ov bib ≠ .error .malformed := by
  unfold resolveAbstract
  repeat' split
  all_goals simp

theorem boolWord_ne_malformed (v : CVal) : boolWord v ≠ .error .malformed := by
  unfold boolWord
  repeat' split
  all_goals simp

theorem resolveBoolField_ne_malformed (k : String) (ov df : List (String × CVal)) :
    resolveBoolField k ov df ≠ .error .malformed := by
  unfold resolveBoolField
  repeat' split
  all_goals first
    | exact boolWord_ne_malformed _
    | simp

theorem resolveStrList_ne_malformed (k : String) (ov : List (String × CVal)) :
    resolveStrList k ov ≠ .error .malformed := by
  unfold resolveStrList
  repeat' split
  all_goals simp

theorem resolveDoi_ne_malformed (ov : List (String × CVal))
    (bib : List (String × FieldVal)) : resolveDoi ov bib ≠ .error .malformed := by
  unfold resolveDoi
  repeat' split
  all_goals simp

theorem withField_ne_malformed {α} (acc : String) (r : Except BErr α)
    (k : α → String × Option BErr)
    (hr : r ≠ .error .malformed)
    (hk : ∀ x, (k x).2 ≠ some BErr.malformed) :
    (withField acc r k).2 ≠ some BErr.malformed := by
  unfold withField
  cases r with
  | error e =>
    intro h
    simp only [Option.some.injEq] at h
    exact hr (by rw [h])
  | ok x => exact hk x

theorem buildIndex_ne_malformed (header footer : String)
    (defaults ptm : List (String × CVal)) (u : Bool) (ov : List (String × CVal))
    (bib : List (String × FieldVal)) (fp : String → String) (ny : Int) :
    (buildIndex header footer defaults ptm u ov bib fp ny).2 ≠ some BErr.malformed := by
  unfold buildIndex
  apply withField_ne_malformed _ _ _ (resolveTitle_ne_malformed ov bib)
  intro title
  apply withField_ne_malformed _ _ _ (resolveAuthors_ne_malformed ov bib)
  intro authors
  apply withField_ne_malformed _ _ _ (resolvePubTypes_ne_malformed ov bib ptm)
  intro ptypes
  apply withField_ne_malformed _ _ _ (resolvePublication_ne_malformed ov bib)
  intro publication
  apply withField_ne_malformed _ _ _ (resolveAbstract_ne_malformed ov bib)
  intro abstract
  apply withField_ne_malformed _ _ _ (resolveBoolField_ne_malformed "featured" ov defaults)
  intro featured
  apply withField_ne_malformed _ _ _ (resolveStrList_ne_malformed "projects" ov)
  intro projects
  apply withField_ne_malformed _ _ _ (resolveStrList_ne_malformed "tags" ov)
  intro tags
  apply withField_ne_malformed _ _ _ (resolveDoi_ne_malformed ov bib)
  intro doi
  apply withField_ne_malformed _ _ _ (resolveBoolField_ne_malformed "math" ov defaults)
  intro math
  simp

theorem buildCite_ne_malformed (citekeys : List String)
    (bib : List (String × FieldVal)) (bibtexkey : String) :
    buildCite citekeys bib bibtexkey ≠ .error .malformed := by
  unfold buildCite
  repeat' split
  all_goals simp

theorem parse_bibtex_entry_error_shape (content key : String) (e : BErr)
    (h : parse_bibtex_entry content key = .error e) : e = .keyNotFound key := by
  unfold parse_bibtex_entry at h
  split at h
  · injection h with h
    exact h.symm
  · dsimp only at h
    split at h <;> simp at h

theorem entryOnlyAbstract_shape (d : List (String × FieldVal))
    (h : entryOnlyAbstract d = true) : ∃ v, d = [("abstract", v)] := by
  match d with
  | [] => simp [entryOnlyAbstract] at h
  | [(k, v)] =>
    refine ⟨v, ?_⟩
    unfold entryOnlyAbstract hasKey lookupF at h
    simp only [List.find?] at h
    rcases hbeq : (k == "abstract") with _ | _
    · rw [hbeq] at h
      simp at h
    · have : k = "abstract" := by simpa using hbeq
      rw [this]
  | p :: q :: t => simp [entryOnlyAbstract] at h

/-- C4: one publication-loop iteration ends with the abstract-only
`ValueError` exactly when the parsed entry consists solely of an abstract
field.  Since the parser always stores the `type` field, neither side ever
holds for actual parser output, and the check at source line 127 never
fires. -/
theorem c4_malformed_iff (content bibtexkey header footer : String)
    (defaults ptm : List (String × CVal)) (u : Bool) (ov : List (String × CVal))
    (citekeys : List String) (fp : String → String) (ny : Int) :
    (buildPublication content bibtexkey header footer defaults ptm u ov citekeys fp ny).2.2
        = some BErr.malformed
      ↔ ∃ v, parse_bibtex_entry content bibtexkey = .ok [("abstract", v)] := by
  unfold buildPublication
  cases hp : parse_bibtex_entry content bibtexkey with
  | error e =>
    have he := parse_bibtex_entry_error_shape content bibtexkey e hp
    subst he
    dsimp only
    constructor
    · intro h; simp at h
    · rintro ⟨v, hv⟩; simp at hv
  | ok d =>
    dsimp only
    by_cases hoa : entryOnlyAbstract d = true
    · rw [if_pos hoa]
      constructor
      · intro _
        obtain ⟨v, hv⟩ := entryOnlyAbstract_shape d hoa
        exact ⟨v, by rw [hv]⟩
      · intro _; rfl
    · rw [if_neg hoa]
      constructor
      · intro h
        exfalso
        rcases hb : buildIndex header footer defaults ptm u ov d fp ny with ⟨idx, oe⟩
        rw [hb] at h
        cases oe with
        | some e =>
          dsimp only at h
          simp only [Option.some.injEq] at h
          exact buildIndex_ne_malformed header footer defaults ptm u ov d fp ny
            (by rw [hb, h])
        | none =>
          dsimp only at h
          cases hc : buildCite citekeys d bibtexkey with
          | error e2 =>
            rw [hc] at h
            dsimp only at h
            simp only [Option.some.injEq] at h
            exact buildCite_ne_malformed citekeys d bibtexkey (by rw [hc, h])
          | ok cite => rw [hc] at h; simp at h
      · rintro ⟨v, hv⟩
        injection hv with hv
        subst hv
        exact absurd rfl hoa

/-- C8: when neither the entry nor the override carries a doi, the write of
`index.md` aborts with the `ValueError` naming `doi`, and the text written
up to that point stops at the tags line — no `doi`, `url_*` or `math` line
is written. -/
theorem c8_missing_doi (header footer : String) (defaults ptm : List (String × CVal))
    (u : Bool) (ov : List (String × CVal)) (bib : List (String × FieldVal))
    (fp : String → String) (ny : Int)
    (title authors ptypes publication abstract featured : _) (projects tags : List String)
    (ht : resolveTitle ov bib = .ok title)
    (ha : resolveAuthors ov bib = .ok authors)
    (hpt : resolvePubTypes ov bib ptm = .ok ptypes)
    (hpub : resolvePublication ov bib = .ok publication)
    (habs : resolveAbstract ov bib = .ok abstract)
    (hfeat : resolveBoolField "featured" ov defaults = .ok featured)
    (hproj : resolveStrList "projects" ov = .ok projects)
    (htags : resolveStrList "tags" ov = .ok tags)
    (hps : lookupF ov "publication_short" = Option.none)
    (has : lookupF ov "abstract_short" = Option.none)
    (hdoi1 : lookupF ov "doi" = Option.none)
    (hdoi2 : lookupF bib "doi" = Option.none) :
    buildIndex header footer defaults ptm u ov bib fp ny =
      (header ++ "title = \"" ++ title ++ "\"\n"
        ++ "date = \"" ++ resolveDate ov bib fp ny ++ "\"\n"
        ++ "authors = " ++ quotedList authors ++ "\n"
        ++ "publication_types = " ++ quotedList ptypes ++ "\n"
        ++ "publication = \"" ++ publication ++ "\"\n"
        ++ ""
        ++ "abstract = \"" ++ abstract ++ "\"\n"
        ++ ""
        ++ "featured = " ++ featured ++ "\n"
        ++ "projects = ["
        ++ String.intercalate ", " (projects.map (fun s => "\"" ++ s ++ "\"")) ++ "]\n"
        ++ "tags = ["
        ++ String.intercalate ", " (tags.map (fun s => "\"" ++ s ++ "\"")) ++ "]\n",
       some (BErr.missingField "doi")) := by
  have hdoi : resolveDoi ov bib = .error (.missingField "doi") := by
    unfold resolveDoi
    rw [hdoi1, hdoi2]
  simp only [buildIndex, withField, ht, ha, hpt, hpub, habs, hfeat, hproj, htags,
    hps, has, hdoi]

/-- C8 witness: the missing-doi failure on a concrete entry and empty
override. -/
theorem c8_missing_doi_witness :
    buildIndex "H\n" "F\n" c8Df [("article", CVal.int 2)] false [] c8Bib (fun _ => "") 2024 =
      ("H\n" ++ "title = \"" ++ "T" ++ "\"\n"
        ++ "date = \"" ++ resolveDate [] c8Bib (fun _ => "") 2024 ++ "\"\n"
        ++ "authors = " ++ quotedList ["Jane Doe"] ++ "\n"
        ++ "publication_types = " ++ quotedList ["2"] ++ "\n"
        ++ "publication = \"" ++ "in *J*" ++ "\"\n"
        ++ ""
        ++ "abstract = \"" ++ "A" ++ "\"\n"
        ++ ""
        ++ "featured = " ++ "false" ++ "\n"
        ++ "projects = ["
        ++ String.intercalate ", " (([] : List String).map (fun s => "\"" ++ s ++ "\"")) ++ "]\n"
        ++ "tags = ["
        ++ String.intercalate ", " (([] : List String).map (fun s => "\"" ++ s ++ "\"")) ++ "]\n",
       some (BErr.missingField "doi")) :=
  c8_missing_doi "H\n" "F\n" c8Df [("article", CVal.int 2)] false [] c8Bib (fun _ => "") 2024
    "T" ["Jane Doe"] ["2"] "in *J*" "A" "false" [] []
    rfl rfl rfl rfl rfl rfl rfl rfl rfl rfl rfl rfl

/-- C10: with no override for the flags, the builder reads `featured` and
`math` directly from the defaults table; when the table lacks the key, the
iteration stops with a bare `KeyError` naming the key — not with a wrapped
configuration error and not with a fallback value. -/
theorem c10_defaults_keyerror (header footer : String) (defaults ptm : List (String × CVal))
    (u : Bool) (ov : List (String × CVal)) (bib : List (String × FieldVal))
    (fp : String → String) (ny : Int)
    (title authors ptypes publication abstract : _)
    (ht : resolveTitle ov bib = .ok title)
    (ha : resolveAuthors ov bib = .ok authors)
    (hpt : resolvePubTypes ov bib ptm = .ok ptypes)
    (hpub : resolvePublication ov bib = .ok publication)
    (habs : resolveAbstract ov bib = .ok abstract)
    (hfo : lookupF ov "featured" = Option.none)
    (hmo : lookupF ov "math" = Option.none) :
    (lookupF defaults "featured" = Option.none →
      (buildIndex header footer defaults ptm u ov bib fp ny).2 =
        some (BErr.keyError "featured")) ∧
    (∀ featured doi, ∀ projects tags : List String,
      resolveBoolField "featured" ov defaults = .ok featured →
      resolveStrList "projects" ov = .ok projects →
      resolveStrList "tags" ov = .ok tags →
      resolveDoi ov bib = .ok doi →
      lookupF defaults "math" = Option.none →
      (buildIndex header footer defaults ptm u ov bib fp ny).2 =
        some (BErr.keyError "math")) := by
  constructor
  · intro hfd
    have hfe : resolveBoolField "featured" ov defaults = .error (.keyError "featured") := by
      unfold resolveBoolField
      rw [hfo, hfd]
    simp only [buildIndex, withField, ht, ha, hpt, hpub, habs, hfe]
  · intro featured doi projects tags hfeat hproj htags hdoi hmd
    have hme : resolveBoolField "math" ov defaults = .error (.keyError "math") := by
      unfold resolveBoolField
      rw [hmo, hmd]
    simp only [buildIndex, withField, ht, ha, hpt, hpub, habs, hfeat, hproj, htags,
      hdoi, hme]

/-- C10 witness: both failure modes on concrete inputs — defaults lacking
`featured`, and defaults holding only `featured` while lacking `math`. -/
theorem c10_defaults_keyerror_witness :
    (buildIndex "" "" [] [("article", CVal.int 2)] false [] c10Bib (fun _ => "") 2024).2 =
        some (BErr.keyError "featured") ∧
      (buildIndex "" "" [("featured", CVal.bool true)] [("article", CVal.int 2)] false []
          c10Bib (fun _ => "") 2024).2 =
        some (BErr.keyError "math") := by
  constructor
  · exact (c10_defaults_keyerror "" "" [] [("article", CVal.int 2)] false [] c10Bib
      (fun _ => "") 2024 "T" ["Jane Doe"] ["2"] "in *J*" "A"
      rfl rfl rfl rfl rfl rfl rfl).1 rfl
  · exact (c10_defaults_keyerror "" "" [("featured", CVal.bool true)]
      [("article", CVal.int 2)] false [] c10Bib (fun _ => "") 2024
      "T" ["Jane Doe"] ["2"] "in *J*" "A"
      rfl rfl rfl rfl rfl rfl rfl).2 "true" (CVal.str "10.1/x") [] []
      rfl rfl rfl rfl rfl

/-- C9 counterexample: on identical configuration and bibliography — an entry
with no `year` field — two runs observing different current years produce
different `index.md` text, so the builder is not a function of its inputs
alone. -/
theorem c9_counterexample :
    buildIndex "" "" c9Df [("article", CVal.int 2)] false [] c9Bib (fun _ => "") 2021 ≠
      buildIndex "" "" c9Df [("article", CVal.int 2)] false [] c9Bib (fun _ => "") 2022 := by
  decide

/-- C9 (amended): for every publication whose parsed entry contains a `year`
field, the written `index.md` text does not depend on the current year the
run observes, so two runs on identical inputs produce byte-identical output
(the free-text date fallback is the same external function in both runs). -/
theorem c9_year_determinism (header footer : String) (defaults ptm : List (String × CVal))
    (u : Bool) (ov : List (String × CVal)) (bib : List (String × FieldVal))
    (fp : String → String) (y1 y2 : Int)
    (hy : hasKey bib "year" = true) :
    buildIndex header footer defaults ptm u ov bib fp y1 =
      buildIndex header footer defaults ptm u ov bib fp y2 := by
  have hd : resolveDate ov bib fp y1 = resolveDate ov bib fp y2 := by
    unfold resolveDate
    cases hov : lookupF ov "date" with
    | some v => rfl
    | none =>
      obtain ⟨fv, hfv⟩ := Option.isSome_iff_exists.mp hy
      rw [hfv]
      cases fv <;> rfl
  unfold buildIndex
  rw [hd]

/-- C9 witness: determinism across observed years on a concrete entry with a
`year` field. -/
theorem c9_year_determinism_witness :
    buildIndex "" "" c9Df [("article", CVal.int 2)] false [] c9YearBib (fun _ => "") 2021 =
      buildIndex "" "" c9Df [("article", CVal.int 2)] false [] c9YearBib (fun _ => "") 2022 :=
  c9_year_determinism "" "" c9Df [("article", CVal.int 2)] false [] c9YearBib
    (fun _ => "") 2021 2022 rfl

theorem ne_of_pred {p : Char → Bool} {c b : Char} (h : p c = true) (hb : p b = false) :
    c ≠ b := fun he => by rw [he, hb] at h; cases h

theorem beq_false_of_ne {c b : Char} (h : c ≠ b) : (c == b) = false :=
  beq_eq_false_iff_ne.mpr h

theorem takeWhile_append_stop {p : Char → Bool} {a : List Char} (b : List Char)
    (h : a.dropWhile p ≠ []) : (a ++ b).takeWhile p = a.takeWhile p := by
  induction a with
  | nil => simp [List.dropWhile] at h
  | cons x t ih =>
    cases hx : p x with
    | true =>
      rw [List.dropWhile_cons_of_pos hx] at h
      simp only [List.cons_append, List.takeWhile_cons_of_pos hx]
      rw [ih h]
    | false =>
      simp only [List.cons_append]
      rw [List.takeWhile_cons_of_neg (by simp [hx]),
        List.takeWhile_cons_of_neg (by simp [hx])]

theorem dropWhile_append_stop {p : Char → Bool} {a : List Char} (b : List Char)
    (h : a.dropWhile p ≠ []) : (a ++ b).dropWhile p = a.dropWhile p ++ b := by
  induction a with
  | nil => simp [List.dropWhile] at h
  | cons x t ih =>
    cases hx : p x with
    | true =>
      rw [List.dropWhile_cons_of_pos hx] at h
      simp only [List.cons_append, List.dropWhile_cons_of_pos hx]
      exact ih h
    | false =>
      simp only [List.cons_append]
      rw [List.dropWhile_cons_of_neg (by simp [hx]),
        List.dropWhile_cons_of_neg (by simp [hx])]
      simp

theorem takeWhile_eq_self_of_dropWhile_nil {p : Char → Bool} {a : List Char}
    (h : a.dropWhile p = []) : a.takeWhile p = a := by
  have := List.takeWhile_append_dropWhile p a
  rw [h, List.append_nil] at this
  exact this

theorem chunksOk_mono : ∀ (f : Nat) (v : List Char), chunksOk f v = true →
    ∀ g, f ≤ g → chunksOk g v = true := by
  intro f
  induction f with
  | zero => intro v h; simp [chunksOk] at h
  | succ n ih =>
    intro v h g hg
    match g, hg with
    | g + 1, hg =>
      unfold chunksOk at h ⊢
      match v with
      | [] => rfl
      | c :: t =>
        try dsimp only at h ⊢
        by_cases hc : c = lbrace
        · rw [if_pos hc] at h ⊢
          try dsimp only at h ⊢
          by_cases hi : t.takeWhile (fun d => d != rbrace) = []
          · rw [if_pos hi] at h; cases h
          · rw [if_neg hi] at h ⊢
            match hr : t.dropWhile (fun d => d != rbrace) with
            | [] => rw [hr] at h; cases h
            | d :: rest2 =>
              rw [hr] at h
              exact ih rest2 h g (Nat.le_of_succ_le_succ hg)
        · rw [if_neg hc] at h ⊢
          by_cases hc2 : c = rbrace
          · rw [if_pos hc2] at h; cases h
          · rw [if_neg hc2] at h ⊢
            exact ih _ h g (Nat.le_of_succ_le_succ hg)

theorem matchVs_exact : ∀ (fuel : Nat) (v rest : List Char), chunksOk fuel v = true →
    matchVs fuel (v ++ rbrace :: rest) = (v, rbrace :: rest) := by
  intro fuel
  induction fuel with
  | zero => intro v rest h; simp [chunksOk] at h
  | succ n ih =>
    intro v rest h
    match v with
    | [] =>
      show matchVs (n + 1) (rbrace :: rest) = ([], rbrace :: rest)
      rfl
    | c :: t =>
      unfold chunksOk at h
      unfold matchVs
      simp only [List.cons_append]
      try dsimp only at h ⊢
      by_cases hc : c = lbrace
      · rw [if_pos hc] at h ⊢
        try dsimp only at h ⊢
        by_cases hi : t.takeWhile (fun d => d != rbrace) = []
        · rw [if_pos hi] at h; cases h
        · rw [if_neg hi] at h
          match hr : t.dropWhile (fun d => d != rbrace) with
          | [] => rw [hr] at h; cases h
          | d :: rest2 =>
            rw [hr] at h
            have hstop : t.dropWhile (fun d => d != rbrace) ≠ [] := by rw [hr]; simp
            rw [takeWhile_append_stop _ hstop, dropWhile_append_stop _ hstop, hr]
            rw [if_neg hi]
            simp only [List.cons_append]
            rw [ih rest2 rest h]
            have ht : t = t.takeWhile (fun d => d != rbrace) ++ d :: rest2 := by
              rw [← hr]; exact (List.takeWhile_append_dropWhile _ t).symm
            try dsimp only
            rw [← ht]
      · rw [if_neg hc] at h ⊢
        by_cases hc2 : c = rbrace
        · rw [if_pos hc2] at h; cases h
        · rw [if_neg hc2] at h ⊢
          by_cases hstop : (c :: t).dropWhile (fun d => d != lbrace && d != rbrace) = []
          · -- the run covers all of c :: t and stops at the appended closing brace
            have htake := takeWhile_eq_self_of_dropWhile_nil hstop
            have hall : ∀ a ∈ c :: t, (a != lbrace && a != rbrace) = true := by
              intro a ha
              have hmem : a ∈ (c :: t).takeWhile (fun d => d != lbrace && d != rbrace) := by
                rw [htake]; exact ha
              simpa using List.mem_takeWhile_imp hmem
            have h1 : ((c :: t) ++ rbrace :: rest).takeWhile
                (fun d => d != lbrace && d != rbrace) = c :: t := by
              rw [List.takeWhile_append_of_pos hall,
                List.takeWhile_cons_of_neg (by simp)]
              simp
            have h2 : ((c :: t) ++ rbrace :: rest).dropWhile
                (fun d => d != lbrace && d != rbrace) = rbrace :: rest := by
              rw [List.dropWhile_append_of_pos hall,
                List.dropWhile_cons_of_neg (by simp)]
            rw [List.cons_append] at h1 h2
            try dsimp only
            rw [h1, h2]
            rw [hstop] at h
            have hmv : matchVs n (rbrace :: rest) = ([], rbrace :: rest) := by
              simpa using ih [] rest h
            rw [hmv]
            simp
          · have h1 := takeWhile_append_stop (p := fun d => d != lbrace && d != rbrace)
              (rbrace :: rest) hstop
            have h2 := dropWhile_append_stop (p := fun d => d != lbrace && d != rbrace)
              (rbrace :: rest) hstop
            rw [List.cons_append] at h1 h2
            try dsimp only
            rw [h1, h2]
            rw [ih _ rest h]
            try dsimp only
            rw [show (c :: t).takeWhile (fun d => d != lbrace && d != rbrace) ++
              (c :: t).dropWhile (fun d => d != lbrace && d != rbrace) = c :: t from
              List.takeWhile_append_dropWhile _ _]

theorem isWordC_not_pyws {c : Char} (h : isWordC c = true) : isPyWs c = false := by
  cases hw : isPyWs c with
  | false => rfl
  | true =>
    unfold isPyWs at hw
    simp only [Bool.or_eq_true, decide_eq_true_eq] at hw
    rcases hw with ((((h1 | h1) | h1) | h1) | h1) | h1 <;>
      (subst h1; exact absurd h (by decide))

theorem matchOption1_nil : matchOption1 [] = none := rfl

theorem matchOption1_newline (t : List Char) : matchOption1 ('\n' :: t) = none := by
  unfold matchOption1
  rw [List.takeWhile_cons_of_neg (p := fun x => x == ' ') (by decide),
    List.dropWhile_cons_of_neg (p := fun x => x == ' ') (by decide)]
  dsimp only
  rw [if_neg (by decide)]

theorem matchOption1_wordc (c : Char) (t : List Char) (h : isWordC c = true) :
    matchOption1 (c :: t) = none := by
  have h1 : ¬((c == ' ') = true) := by
    simp
    exact ne_of_pred h (by decide)
  unfold matchOption1
  rw [List.takeWhile_cons_of_neg (p := fun x => x == ' ') h1,
    List.dropWhile_cons_of_neg (p := fun x => x == ' ') h1]
  have h2 : c ≠ ',' := ne_of_pred h (by decide)
  dsimp only
  rw [if_neg h2]

theorem matchOption1_field (kh : Char) (kt v rest : List Char)
    (hkw : ∀ a ∈ kh :: kt, isWordC a = true) (hv : valueOk v = true) :
    matchOption1 (renderField (kh :: kt, v) ++ rest) =
      some (renderField (kh :: kt, v), rest) := by
  have hknw : ∀ a ∈ kh :: kt, isPyWs a = false := fun a ha => isWordC_not_pyws (hkw a ha)
  have hsplit : (!v.isEmpty) = true ∧ chunksOk (v.length + 1) v = true := by
    have h0 := hv
    unfold valueOk at h0
    simpa using h0
  have hvne : v ≠ [] := by simpa using hsplit.1
  have hchunks : chunksOk ((v ++ rbrace :: rest).length + 1) v = true :=
    chunksOk_mono _ v hsplit.2 _
      (by
        have : v.length ≤ (v ++ rbrace :: rest).length := by simp
        omega)
  have hshape : renderField (kh :: kt, v) ++ rest =
      ',' :: '\n' :: ' ' :: ' ' ::
        kh :: (kt ++ ' ' :: '=' :: ' ' :: lbrace :: (v ++ rbrace :: rest)) := by
    simp [renderField, fragOf]
  rw [hshape]
  unfold matchOption1
  rw [List.takeWhile_cons_of_neg (p := fun x => x == ' ') (by decide),
    List.dropWhile_cons_of_neg (p := fun x => x == ' ') (by decide)]
  dsimp only
  rw [if_pos rfl]
  rw [List.takeWhile_cons_of_pos (p := isPyWs) (by decide),
    List.takeWhile_cons_of_pos (p := isPyWs) (by decide),
    List.takeWhile_cons_of_pos (p := isPyWs) (by decide),
    List.takeWhile_cons_of_neg (p := isPyWs) (by simpa using hknw kh (by simp)),
    List.dropWhile_cons_of_pos (p := isPyWs) (by decide),
    List.dropWhile_cons_of_pos (p := isPyWs) (by decide),
    List.dropWhile_cons_of_pos (p := isPyWs) (by decide),
    List.dropWhile_cons_of_neg (p := isPyWs) (by simpa using hknw kh (by simp))]
  rw [List.takeWhile_cons_of_pos (p := isWordC) (by simpa using hkw kh (by simp)),
    List.takeWhile_append_of_pos (p := isWordC) (fun a ha => hkw a (by simp [ha])),
    List.takeWhile_cons_of_neg (p := isWordC) (by decide), List.append_nil,
    List.dropWhile_cons_of_pos (p := isWordC) (by simpa using hkw kh (by simp)),
    List.dropWhile_append_of_pos (p := isWordC) (fun a ha => hkw a (by simp [ha])),
    List.dropWhile_cons_of_neg (p := isWordC) (by decide)]
  rw [if_neg (by simp)]
  try dsimp only
  rw [List.takeWhile_cons_of_pos (p := fun x => x == ' ') (by decide),
    List.takeWhile_cons_of_neg (p := fun x => x == ' ') (by decide),
    List.dropWhile_cons_of_pos (p := fun x => x == ' ') (by decide),
    List.dropWhile_cons_of_neg (p := fun x => x == ' ') (by decide)]
  rw [if_neg (by simp)]
  try dsimp only
  rw [if_pos rfl]
  rw [List.takeWhile_cons_of_pos (p := fun x => x == ' ') (by decide),
    List.takeWhile_cons_of_neg (p := fun x => x == ' ') (by decide),
    List.dropWhile_cons_of_pos (p := fun x => x == ' ') (by decide),
    List.dropWhile_cons_of_neg (p := fun x => x == ' ') (by decide)]
  try dsimp only
  rw [if_pos rfl]
  rw [matchVs_exact _ v rest hchunks]
  try dsimp only
  rw [if_neg hvne]
  try dsimp only
  rw [if_pos rfl]
  simp [renderField, fragOf]

theorem wfField_parts {f : List Char × List Char} (h : wfField f = true) :
    f.1 ≠ [] ∧ (∀ a ∈ f.1, isWordC a = true) ∧ f.1 ≠ "type".data ∧ valueOk f.2 = true ∧
      occurs ['\n', '@'] f.2 = false := by
  unfold wfField at h
  simp only [Bool.and_eq_true] at h
  obtain ⟨⟨⟨⟨h1, h2⟩, h3⟩, h4⟩, h5⟩ := h
  refine ⟨by simpa using h1, by simpa [List.all_eq_true] using h2, by simpa using h3,
    h4, by simpa using h5⟩

theorem wfEntry_parts {e : BEntry} (h : wfEntry e = true) :
    e.btype ≠ [] ∧ (∀ a ∈ e.btype, Char.isLower a = true) ∧
      e.bkey ≠ [] ∧ (∀ a ∈ e.bkey, isWordC a = true) ∧
      e.fields ≠ [] ∧ (∀ f ∈ e.fields, wfField f = true) ∧
      keysDistinct (e.fields.map Prod.fst) = true := by
  unfold wfEntry at h
  simp only [Bool.and_eq_true] at h
  obtain ⟨⟨⟨⟨⟨⟨h1, h2⟩, h3⟩, h4⟩, h5⟩, h6⟩, h7⟩ := h
  refine ⟨by simpa using h1, by simpa [List.all_eq_true] using h2, by simpa using h3,
    by simpa [List.all_eq_true] using h4, by simpa using h5,
    by simpa [List.all_eq_true] using h6, h7⟩

theorem matchOptionsAux_fields : ∀ (fields : List (List Char × List Char)) (fuel : Nat)
    (rest : List Char), fields.length < fuel →
    (∀ f ∈ fields, wfField f = true) →
    (rest = [] ∨ ∃ t, rest = '\n' :: t) →
    matchOptionsAux fuel (renderFields fields ++ rest) = (renderFields fields, rest) := by
  intro fields
  induction fields with
  | nil =>
    intro fuel rest hf _ hrest
    match fuel, hf with
    | fuel + 1, _ =>
      unfold matchOptionsAux
      have hnone : matchOption1 rest = none := by
        rcases hrest with rfl | ⟨t, rfl⟩
        · exact matchOption1_nil
        · exact matchOption1_newline t
      simp [renderFields, hnone]
  | cons f fs ih =>
    intro fuel rest hf hwf hrest
    obtain ⟨k, v⟩ := f
    obtain ⟨kh, kt, rfl⟩ : ∃ kh kt, k = kh :: kt := by
      have hp := wfField_parts (hwf (k, v) (by simp))
      match k, hp.1 with
      | a :: b, _ => exact ⟨a, b, rfl⟩
    match fuel, hf with
    | fuel + 1, hf =>
      have hp := wfField_parts (hwf (kh :: kt, v) (by simp))
      have hmo : matchOption1 (renderField (kh :: kt, v) ++ (renderFields fs ++ rest)) =
          some (renderField (kh :: kt, v), renderFields fs ++ rest) :=
        matchOption1_field kh kt v (renderFields fs ++ rest) hp.2.1 hp.2.2.2.1
      have hconc : renderFields ((kh :: kt, v) :: fs) ++ rest =
          renderField (kh :: kt, v) ++ (renderFields fs ++ rest) := by
        simp [renderFields]
      unfold matchOptionsAux
      rw [hconc, hmo]
      dsimp only
      rw [ih fuel rest (Nat.lt_of_succ_lt_succ hf) (fun g hg => hwf g (by simp [hg])) hrest]
      simp [renderFields]

theorem fields_length_le_render (fs : List (List Char × List Char)) :
    fs.length ≤ (renderFields fs).length := by
  induction fs with
  | nil => simp [renderFields]
  | cons f t ih =>
    simp only [renderFields, List.map_cons, List.flatten_cons, List.length_append,
      List.length_cons]
    have : 1 ≤ (renderField f).length := by simp [renderField]
    have ht : t.length ≤ (renderFields t).length := ih
    simp only [renderFields] at ht
    omega

theorem renderFields_ne_nil {fs : List (List Char × List Char)} (h : fs ≠ []) :
    renderFields fs ≠ [] := by
  match fs, h with
  | f :: t, _ => simp [renderFields, renderField]

theorem tryMatchAt_not_at (key : List Char) (c : Char) (t : List Char) (h : c ≠ '@') :
    tryMatchAt key (c :: t) = none := by
  unfold tryMatchAt
  dsimp only
  rw [if_neg h]

theorem tryMatchAt_target (e : BEntry) (rest : List Char) (hwf : wfEntry e = true) :
    tryMatchAt e.bkey (renderEntry e ++ rest) = some (e.btype, renderFields e.fields) := by
  obtain ⟨ty, key, fields⟩ := e
  obtain ⟨h1, h2, h3, h4, h5, h6, h7⟩ := wfEntry_parts hwf
  dsimp only at h1 h2 h3 h4 h5 h6 h7 ⊢
  obtain ⟨kh, kt, rfl⟩ : ∃ a b, key = a :: b := by
    match key, h3 with
    | a :: b, _ => exact ⟨a, b, rfl⟩
  have hshape : renderEntry ⟨ty, kh :: kt, fields⟩ ++ rest =
      '@' :: (ty ++ lbrace :: (kh :: (kt ++
        (renderFields fields ++ '\n' :: rbrace :: '\n' :: '\n' :: rest)))) := by
    simp [renderEntry]
  rw [hshape]
  unfold tryMatchAt
  dsimp only
  rw [if_pos rfl]
  rw [List.takeWhile_append_of_pos (p := Char.isLower) h2,
    List.takeWhile_cons_of_neg (p := Char.isLower) (by decide), List.append_nil,
    List.dropWhile_append_of_pos (p := Char.isLower) h2,
    List.dropWhile_cons_of_neg (p := Char.isLower) (by decide)]
  rw [if_neg h1]
  rw [List.dropWhile_cons_of_neg (p := fun x => x == ' ') (by decide)]
  dsimp only
  rw [if_pos rfl]
  rw [List.dropWhile_cons_of_neg (p := fun x => x == ' ')
    (by simp; exact ne_of_pred (h4 kh (by simp)) (by decide))]
  have hpre : (kh :: kt).isPrefixOf (kh :: (kt ++
      (renderFields fields ++ '\n' :: rbrace :: '\n' :: '\n' :: rest))) = true := by
    rw [← List.cons_append]
    exact List.isPrefixOf_iff_prefix.mpr (List.prefix_append _ _)
  rw [hpre, if_pos rfl]
  have hdrop : (kh :: (kt ++
      (renderFields fields ++ '\n' :: rbrace :: '\n' :: '\n' :: rest))).drop
        (kh :: kt).length = renderFields fields ++ '\n' :: rbrace :: '\n' :: '\n' :: rest := by
    rw [← List.cons_append]
    exact List.drop_left _ _
  rw [hdrop]
  unfold matchOptions
  have hlen : fields.length <
      (renderFields fields ++ '\n' :: rbrace :: '\n' :: '\n' :: rest).length + 1 := by
    have := fields_length_le_render fields
    simp only [List.length_append]
    omega
  rw [matchOptionsAux_fields fields _ ('\n' :: rbrace :: '\n' :: '\n' :: rest) hlen h6
    (Or.inr ⟨_, rfl⟩)]
  dsimp only
  rw [if_neg (renderFields_ne_nil h5)]

theorem tryMatchAt_other (e : BEntry) (key rest : List Char) (hwf : wfEntry e = true)
    (hkw : ∀ a ∈ key, isWordC a = true) (hne : key ≠ e.bkey) :
    tryMatchAt key (renderEntry e ++ rest) = none := by
  obtain ⟨ty, bkey, fields⟩ := e
  obtain ⟨h1, h2, h3, h4, h5, h6, h7⟩ := wfEntry_parts hwf
  dsimp only at h1 h2 h3 h4 h5 h6 h7
  dsimp only at hne
  obtain ⟨bh, bt, rfl⟩ : ∃ a b, bkey = a :: b := by
    match bkey, h3 with
    | a :: b, _ => exact ⟨a, b, rfl⟩
  have hshape : renderEntry ⟨ty, bh :: bt, fields⟩ ++ rest =
      '@' :: (ty ++ lbrace :: (bh :: (bt ++
        (renderFields fields ++ '\n' :: rbrace :: '\n' :: '\n' :: rest)))) := by
    simp [renderEntry]
  rw [hshape]
  unfold tryMatchAt
  dsimp only
  rw [if_pos rfl]
  rw [List.takeWhile_append_of_pos (p := Char.isLower) h2,
    List.takeWhile_cons_of_neg (p := Char.isLower) (by decide), List.append_nil,
    List.dropWhile_append_of_pos (p := Char.isLower) h2,
    List.dropWhile_cons_of_neg (p := Char.isLower) (by decide)]
  rw [if_neg h1]
  rw [List.dropWhile_cons_of_neg (p := fun x => x == ' ') (by decide)]
  dsimp only
  rw [if_pos rfl]
  rw [List.dropWhile_cons_of_neg (p := fun x => x == ' ')
    (by simp; exact ne_of_pred (h4 bh (by simp)) (by decide))]
  set X := renderFields fields ++ '\n' :: rbrace :: '\n' :: '\n' :: rest with hX
  by_cases hpre : key.isPrefixOf (bh :: (bt ++ X)) = true
  · rw [hpre, if_pos rfl]
    have hpre' : key <+: (bh :: bt) ++ X := by
      rw [List.cons_append]
      exact List.isPrefixOf_iff_prefix.mp hpre
    have hbpre : (bh :: bt) <+: (bh :: bt) ++ X := List.prefix_append _ _
    rcases List.prefix_or_prefix_of_prefix hpre' hbpre with hcase | hcase
    · obtain ⟨z, hz⟩ := hcase
      match z, hz with
      | [], hz =>
        exfalso
        rw [List.append_nil] at hz
        exact hne hz
      | zh :: zt, hz =>
        have hdrop : (bh :: (bt ++ X)).drop key.length = (zh :: zt) ++ X := by
          rw [← List.cons_append, ← hz, List.append_assoc]
          exact List.drop_left _ _
        rw [hdrop]
        have hzmem : zh ∈ bh :: bt := by rw [← hz]; simp
        have hzw : isWordC zh = true := h4 zh hzmem
        have hm1 : matchOption1 ((zh :: zt) ++ X) = none := by
          rw [List.cons_append]
          exact matchOption1_wordc zh _ hzw
        unfold matchOptions matchOptionsAux
        rw [hm1]
        dsimp only
        rw [if_pos rfl]
    · obtain ⟨z, hz⟩ := hcase
      match z, hz with
      | [], hz =>
        exfalso
        rw [List.append_nil] at hz
        exact hne hz.symm
      | zh :: zt, hz =>
        exfalso
        obtain ⟨w, hw⟩ := hpre'
        have hXz : (zh :: zt) ++ w = X := by
          have hcat : (bh :: bt) ++ ((zh :: zt) ++ w) = (bh :: bt) ++ X := by
            rw [← List.append_assoc, hz, hw]
          exact List.append_cancel_left hcat
        obtain ⟨f, fs, rfl⟩ : ∃ f fs, fields = f :: fs := by
          match fields, h5 with
          | f :: fs, _ => exact ⟨f, fs, rfl⟩
        have hhead : X.head? = some ',' := by
          rw [hX]
          simp [renderFields, renderField]
        rw [← hXz] at hhead
        simp only [List.cons_append, List.head?_cons, Option.some.injEq] at hhead
        have : isWordC zh = true := hkw zh (by rw [← hz]; simp)
        rw [hhead] at this
        exact absurd this (by decide)
  · have hfalse : key.isPrefixOf (bh :: (bt ++ X)) = false := by
      cases h : key.isPrefixOf (bh :: (bt ++ X)) with
      | false => rfl
      | true => exact absurd h hpre
    rw [hfalse]
    rw [if_neg (by simp)]

theorem scanSafe_cons (flag : Bool) (c : Char) (t : List Char) :
    scanSafe flag (c :: t) = (!(flag && c == '@') && scanSafe (c == '\n') t) := rfl

theorem endsNL_cons (flag : Bool) (c : Char) (t : List Char) :
    endsNL flag (c :: t) = endsNL (c == '\n') t := by
  unfold endsNL
  cases t with
  | nil => simp
  | cons d ds =>
    rw [List.getLast?_cons_cons]
    rcases h : (d :: ds).getLast? with _ | x
    · simp at h
    · rfl

theorem endsNL_append (flag : Bool) (a b : List Char) :
    endsNL flag (a ++ b) = endsNL (endsNL flag a) b := by
  cases hb : b with
  | nil => simp [endsNL]
  | cons c cs =>
    unfold endsNL
    rw [@List.getLast?_append_of_ne_nil Char a (c :: cs) (by simp)]
    rcases h : (c :: cs).getLast? with _ | x
    · simp at h
    · rfl

theorem scanSafe_append (a : List Char) : ∀ (flag : Bool) (b : List Char),
    scanSafe flag (a ++ b) = (scanSafe flag a && scanSafe (endsNL flag a) b) := by
  induction a with
  | nil => intro flag b; simp [scanSafe, endsNL]
  | cons c t ih =>
    intro flag b
    simp only [List.cons_append, scanSafe_cons, endsNL_cons, ih, Bool.and_assoc]

theorem scanSafe_of_all : ∀ (l : List Char) (flag : Bool),
    (∀ c ∈ l, c ≠ '@' ∧ c ≠ '\n') → scanSafe flag l = true := by
  intro l
  induction l with
  | nil => intro flag _; rfl
  | cons c t ih =>
    intro flag h
    have hc := h c (by simp)
    unfold scanSafe
    rw [Bool.and_eq_true]
    constructor
    · cases flag <;> simp [beq_false_of_ne hc.1]
    · rw [beq_false_of_ne hc.2]
      exact ih false (fun d hd => h d (by simp [hd]))

theorem scanSafe_gen : ∀ (v : List Char) (flag : Bool), occurs ['\n', '@'] v = false →
    (flag = true → v.head? ≠ some '@') → scanSafe flag v = true := by
  intro v
  induction v with
  | nil => intro flag _ _; rfl
  | cons c t ih =>
    intro flag hocc hhead
    unfold occurs at hocc
    rw [Bool.or_eq_false_iff] at hocc
    obtain ⟨hpre, hocc'⟩ := hocc
    unfold scanSafe
    rw [Bool.and_eq_true]
    constructor
    · cases flag with
      | false => simp
      | true =>
        have : c ≠ '@' := fun hq => hhead rfl (by rw [hq]; rfl)
        simp [beq_false_of_ne this]
    · apply ih (c == '\n') hocc'
      intro hc
      have hcnl : c = '\n' := by simpa using hc
      subst hcnl
      cases t with
      | nil => simp
      | cons d ds =>
        intro hd
        have hdq : d = '@' := by simpa using hd
        subst hdq
        simp [List.isPrefixOf] at hpre

theorem endsNL_no_nl : ∀ (l : List Char), (∀ c ∈ l, c ≠ '\n') → endsNL false l = false := by
  intro l
  induction l with
  | nil => intro _; rfl
  | cons c t ih =>
    intro h
    rw [endsNL_cons, beq_false_of_ne (h c (by simp))]
    exact ih (fun d hd => h d (by simp [hd]))

theorem scanSafe_renderField (f : List Char × List Char) (hwf : wfField f = true) :
    ∀ flag, scanSafe flag (renderField f) = true := by
  obtain ⟨hk1, hk2, _, _, hocc⟩ := wfField_parts hwf
  intro flag
  have hshape : renderField f =
      [',', '\n', ' ', ' '] ++ f.1 ++ ([' ', '=', ' ', lbrace] ++ (f.2 ++ [rbrace])) := by
    simp [renderField, fragOf]
  have hA : ∀ fl, scanSafe fl [',', '\n', ' ', ' '] = true := by
    intro fl; cases fl <;> decide
  have hk : ∀ fl, scanSafe fl f.1 = true := fun fl => scanSafe_of_all _ fl
    (fun c hc => ⟨ne_of_pred (hk2 c hc) (by decide), ne_of_pred (hk2 c hc) (by decide)⟩)
  have hC : ∀ fl, scanSafe fl [' ', '=', ' ', lbrace] = true := by
    intro fl; cases fl <;> decide
  have hENC : ∀ fl, endsNL fl [' ', '=', ' ', lbrace] = false := fun fl => rfl
  have hv : scanSafe false f.2 = true :=
    scanSafe_gen f.2 false hocc (fun h => absurd h (by decide))
  have hRB : ∀ fl, scanSafe fl [rbrace] = true := by
    intro fl; cases fl <;> decide
  rw [hshape]
  simp only [scanSafe_append]
  rw [hA, hk, hC, hENC, hv, hRB]
  simp

theorem scanSafe_renderFields (fs : List (List Char × List Char))
    (hwf : ∀ f ∈ fs, wfField f = true) :
    ∀ flag, scanSafe flag (renderFields fs) = true := by
  induction fs with
  | nil => intro flag; rfl
  | cons f t ih =>
    intro flag
    have : renderFields (f :: t) = renderField f ++ renderFields t := by
      simp [renderFields]
    rw [this, scanSafe_append,
      scanSafe_renderField f (hwf f (by simp)),
      ih (fun g hg => hwf g (by simp [hg]))]
    simp

theorem searchBibAux_cons (key : List Char) (flag : Bool) (c : Char) (t : List Char) :
    searchBibAux key flag (c :: t) =
      if flag then
        match tryMatchAt key (c :: t) with
        | some r => some r
        | none => searchBibAux key (c == '\n') t
      else searchBibAux key (c == '\n') t := rfl

theorem searchAux_through (key : List Char) : ∀ (chunk : List Char) (flag : Bool)
    (rest : List Char), scanSafe flag chunk = true →
    searchBibAux key flag (chunk ++ rest) = searchBibAux key (endsNL flag chunk) rest := by
  intro chunk
  induction chunk with
  | nil => intro flag rest _; simp [endsNL]
  | cons c t ih =>
    intro flag rest hs
    rw [scanSafe_cons, Bool.and_eq_true] at hs
    obtain ⟨hs1, hs2⟩ := hs
    rw [List.cons_append, endsNL_cons, searchBibAux_cons]
    cases flag with
    | false =>
      rw [if_neg (by simp)]
      exact ih (c == '\n') rest hs2
    | true =>
      have hcq : c ≠ '@' := by
        intro hq
        rw [hq] at hs1
        simp at hs1
      rw [if_pos rfl, tryMatchAt_not_at key c (t ++ rest) hcq]
      exact ih (c == '\n') rest hs2

theorem searchAux_skip_entry (e : BEntry) (key rest : List Char) (hwf : wfEntry e = true)
    (hkw : ∀ a ∈ key, isWordC a = true) (hne : key ≠ e.bkey) :
    searchBibAux key true (renderEntry e ++ rest) = searchBibAux key true rest := by
  obtain ⟨h1, h2, h3, h4, h5, h6, h7⟩ := wfEntry_parts hwf
  set B := e.btype ++ lbrace ::
    (e.bkey ++ renderFields e.fields ++ '\n' :: rbrace :: '\n' :: ['\n']) with hB
  have hshape : renderEntry e ++ rest = '@' :: (B ++ rest) := by
    simp [renderEntry, hB]
  have htm : tryMatchAt key ('@' :: (B ++ rest)) = none := by
    rw [← hshape]
    exact tryMatchAt_other e key rest hwf hkw hne
  have hscan : scanSafe false B = true := by
    have sTy : ∀ fl, scanSafe fl e.btype = true := fun fl => scanSafe_of_all _ fl
      (fun c hc => ⟨ne_of_pred (h2 c hc) (by decide), ne_of_pred (h2 c hc) (by decide)⟩)
    have sBrace : ∀ fl : Bool, scanSafe fl [lbrace] = true := by
      intro fl; cases fl <;> decide
    have sKey : ∀ fl, scanSafe fl e.bkey = true := fun fl => scanSafe_of_all _ fl
      (fun c hc => ⟨ne_of_pred (h4 c hc) (by decide), ne_of_pred (h4 c hc) (by decide)⟩)
    have sRF : ∀ fl, scanSafe fl (renderFields e.fields) = true :=
      scanSafe_renderFields _ h6
    have sTL : ∀ fl : Bool, scanSafe fl ['\n', rbrace, '\n', '\n'] = true := by
      intro fl; cases fl <;> decide
    have hB3 : B = e.btype ++ ([lbrace] ++
        (e.bkey ++ (renderFields e.fields ++ ['\n', rbrace, '\n', '\n']))) := by
      simp [hB]
    rw [hB3]
    simp only [scanSafe_append]
    simp only [sTy, sBrace, sKey, sRF, sTL]
    simp
  have hend : endsNL false B = true := by
    have hB2 : B = (e.btype ++ lbrace :: (e.bkey ++ renderFields e.fields)) ++
        ['\n', rbrace, '\n', '\n'] := by simp [hB]
    rw [hB2, endsNL_append]
    rfl
  rw [hshape, searchBibAux_cons, if_pos rfl, htm]
  show searchBibAux key false (B ++ rest) = searchBibAux key true rest
  rw [searchAux_through key B false rest hscan, hend]

theorem searchBib_found : ∀ (pre : List BEntry) (e : BEntry) (post : List BEntry),
    (∀ p ∈ pre, wfEntry p = true) → (∀ p ∈ pre, e.bkey ≠ p.bkey) → wfEntry e = true →
    searchBib e.bkey (renderBib (pre ++ e :: post)) =
      some (e.btype, renderFields e.fields) := by
  intro pre
  induction pre with
  | nil =>
    intro e post _ _ hwf
    have hr : renderBib (e :: post) = renderEntry e ++ renderBib post := by
      simp [renderBib]
    have hcons : renderEntry e ++ renderBib post = '@' :: ((e.btype ++ lbrace ::
        (e.bkey ++ renderFields e.fields ++ '\n' :: rbrace :: '\n' :: ['\n'])) ++
        renderBib post) := by
      simp [renderEntry]
    have htm := tryMatchAt_target e (renderBib post) hwf
    unfold searchBib
    rw [List.nil_append, hr, hcons, searchBibAux_cons, if_pos rfl, ← hcons, htm]
  | cons p pre' ih =>
    intro e post hwfpre hnep hwf
    have hr : renderBib ((p :: pre') ++ e :: post) =
        renderEntry p ++ renderBib (pre' ++ e :: post) := by
      simp [renderBib]
    have hkw : ∀ a ∈ e.bkey, isWordC a = true := (wfEntry_parts hwf).2.2.2.1
    unfold searchBib
    rw [hr, searchAux_skip_entry p e.bkey _ (hwfpre p (by simp)) hkw (hnep p (by simp))]
    exact ih e post (fun q hq => hwfpre q (by simp [hq]))
      (fun q hq => hnep q (by simp [hq])) hwf

theorem occurs_cons (pat : List Char) (c : Char) (t : List Char) :
    occurs pat (c :: t) = (pat.isPrefixOf (c :: t) || occurs pat t) := rfl

theorem isPrefixOf_two_cons (x y c : Char) (t : List Char) :
    [x, y].isPrefixOf (c :: t) = ((x == c) && [y].isPrefixOf t) := rfl

theorem occurs2_no_head (x y : Char) : ∀ (l : List Char), (∀ c ∈ l, c ≠ x) →
    occurs [x, y] l = false := by
  intro l
  induction l with
  | nil => intro _; rfl
  | cons c t ih =>
    intro h
    rw [occurs_cons, isPrefixOf_two_cons]
    have hx : (x == c) = false := beq_false_of_ne (fun he => (h c (by simp)) he.symm)
    rw [hx, ih (fun d hd => h d (by simp [hd]))]
    rfl

theorem occurs2_append (x y : Char) : ∀ (a b : List Char),
    occurs [x, y] a = false → occurs [x, y] b = false →
    (a.getLast? ≠ some x ∨ b.head? ≠ some y) →
    occurs [x, y] (a ++ b) = false := by
  intro a
  induction a with
  | nil => intro b _ hb _; simpa using hb
  | cons c t ih =>
    intro b ha hb hs
    rw [occurs_cons] at ha
    obtain ⟨ha1, ha2⟩ := Bool.or_eq_false_iff.mp ha
    rw [List.cons_append, occurs_cons]
    apply Bool.or_eq_false_iff.mpr
    constructor
    · rw [isPrefixOf_two_cons] at ha1 ⊢
      cases hxc : (x == c) with
      | false => rfl
      | true =>
        rw [hxc] at ha1
        simp only [Bool.true_and] at ha1 ⊢
        cases t with
        | nil =>
          have hx : x = c := eq_of_beq hxc
          rcases hs with hs | hs
          · exact absurd (by rw [hx]; rfl) hs
          · cases b with
            | nil => rfl
            | cons e b2 =>
              have hye : (y == e) = false :=
                beq_false_of_ne (fun he => hs (by simp [he]))
              simp [List.isPrefixOf, hye]
        | cons d t2 =>
          have hyd : (y == d) = false := by
            simpa [List.isPrefixOf] using ha1
          simp [List.isPrefixOf, hyd]
    · cases t with
      | nil => simpa using hb
      | cons d t2 =>
        apply ih b ha2 hb
        rcases hs with hs | hs
        · left; rw [List.getLast?_cons_cons] at hs; exact hs
        · right; exact hs

theorem fragOf_decomp (f : List Char × List Char) :
    fragOf f = (' ' :: ' ' :: f.1) ++ ([' ', '=', ' ', lbrace] ++ (f.2 ++ [rbrace])) := by
  simp [fragOf]

theorem occurs_cnl_fragOf (f : List Char × List Char) (hk : ∀ c ∈ f.1, isWordC c = true)
    (hv : occurs [',', '\n'] f.2 = false) :
    occurs [',', '\n'] (fragOf f) = false := by
  rw [fragOf_decomp]
  apply occurs2_append
  · apply occurs2_no_head
    intro c hc
    simp only [List.mem_cons] at hc
    rcases hc with rfl | rfl | hc
    · decide
    · decide
    · exact ne_of_pred (hk c hc) (by decide)
  · apply occurs2_append
    · decide
    · exact occurs2_append ',' '\n' f.2 [rbrace] hv (by decide) (Or.inr (by decide))
    · left; decide
  · right
    rw [show (([' ', '=', ' ', lbrace] ++ (f.2 ++ [rbrace])).head?) = some ' ' from rfl]
    decide

theorem fragOf_getLast (f : List Char × List Char) :
    (fragOf f).getLast? = some rbrace := by
  have h : fragOf f =
      (' ' :: ' ' :: (f.1 ++ ' ' :: '=' :: ' ' :: lbrace :: f.2)) ++ [rbrace] := by
    simp [fragOf]
  rw [h, List.getLast?_concat]

theorem splitOnSubAux_succ (sep : List Char) (fuel : Nat) (acc l : List Char) :
    splitOnSubAux sep (fuel + 1) acc l =
      if sep ≠ [] ∧ sep.isPrefixOf l then
        acc :: splitOnSubAux sep fuel [] (l.drop sep.length)
      else
        match l with
        | [] => [acc]
        | c :: t => splitOnSubAux sep fuel (acc ++ [c]) t := rfl

theorem splitAux_sep (fuel : Nat) (acc rest : List Char) :
    splitOnSubAux [',', '\n'] (fuel + 1) acc (',' :: '\n' :: rest) =
      acc :: splitOnSubAux [',', '\n'] fuel [] rest := by
  rw [splitOnSubAux_succ, if_pos ⟨by simp, by simp [List.isPrefixOf]⟩]
  rfl

theorem splitAux_cnl_through : ∀ (a : List Char) (fuel : Nat) (acc rest : List Char),
    occurs [',', '\n'] a = false → a.getLast? ≠ some ',' →
    splitOnSubAux [',', '\n'] (fuel + a.length) acc (a ++ rest) =
      splitOnSubAux [',', '\n'] fuel (acc ++ a) rest := by
  intro a
  induction a with
  | nil => intro fuel acc rest _ _; simp
  | cons c t ih =>
    intro fuel acc rest hocc hlast
    rw [occurs_cons] at hocc
    obtain ⟨h1, h2⟩ := Bool.or_eq_false_iff.mp hocc
    have hpre : [',', '\n'].isPrefixOf (c :: (t ++ rest)) = false := by
      rw [isPrefixOf_two_cons] at h1 ⊢
      cases hxc : ((',' : Char) == c) with
      | false => rfl
      | true =>
        rw [hxc] at h1
        simp only [Bool.true_and] at h1 ⊢
        cases t with
        | nil => exact absurd (by rw [← eq_of_beq hxc]; rfl) hlast
        | cons d t2 =>
          have hyd : (('\n' : Char) == d) = false := by
            simpa [List.isPrefixOf] using h1
          simp [List.isPrefixOf, hyd]
    have hlast2 : t.getLast? ≠ some ',' := by
      cases t with
      | nil => simp
      | cons d t2 => rw [List.getLast?_cons_cons] at hlast; exact hlast
    have harith : fuel + (c :: t).length = (fuel + t.length) + 1 := by
      simp [List.length_cons]; omega
    rw [List.cons_append, harith, splitOnSubAux_succ,
      if_neg (by rw [hpre]; simp)]
    show splitOnSubAux [',', '\n'] (fuel + t.length) (acc ++ [c]) (t ++ rest) = _
    rw [ih fuel (acc ++ [c]) rest h2 hlast2]
    simp

theorem splitAux_renderFields : ∀ (fs : List (List Char × List Char)) (fuel : Nat)
    (acc : List Char),
    (∀ f ∈ fs, occurs [',', '\n'] (fragOf f) = false) →
    splitOnSubAux [',', '\n'] (fuel + (renderFields fs).length) acc (renderFields fs) =
      acc :: fs.map fragOf := by
  intro fs
  induction fs with
  | nil =>
    intro fuel acc _
    show splitOnSubAux [',', '\n'] (fuel + (renderFields []).length) acc (renderFields []) = _
    cases fuel with
    | zero => simp [renderFields, splitOnSubAux]
    | succ n => simp [renderFields, splitOnSubAux, List.isPrefixOf]
  | cons f t ih =>
    intro fuel acc hc
    have hf := hc f (by simp)
    have ht : ∀ g ∈ t, occurs [',', '\n'] (fragOf g) = false :=
      fun g hg => hc g (by simp [hg])
    have hr : renderFields (f :: t) = ',' :: '\n' :: (fragOf f ++ renderFields t) := by
      simp [renderFields, renderField]
    have harith : fuel + (renderFields (f :: t)).length =
        (((fuel + 1) + (renderFields t).length) + (fragOf f).length) + 1 := by
      rw [hr]
      simp only [List.length_cons, List.length_append]
      omega
    rw [harith, hr, splitAux_sep,
      splitAux_cnl_through (fragOf f) ((fuel + 1) + (renderFields t).length) [] (renderFields t)
        hf (by rw [fragOf_getLast]; decide),
      List.nil_append]
    have harith2 : (fuel + 1) + (renderFields t).length = (fuel + 1) + (renderFields t).length :=
      rfl
    rw [ih (fuel + 1) (fragOf f) ht]
    simp

theorem splitOnSub_renderFields (fs : List (List Char × List Char))
    (h : ∀ f ∈ fs, occurs [',', '\n'] (fragOf f) = false) :
    splitOnSub [',', '\n'] (renderFields fs) = [] :: fs.map fragOf := by
  unfold splitOnSub
  rw [show (renderFields fs).length + 1 = 1 + (renderFields fs).length from Nat.add_comm _ 1]
  exact splitAux_renderFields fs 1 [] h

theorem dropWhile_eq_self_of_all {p : Char → Bool} : ∀ {l : List Char},
    (∀ c ∈ l, p c = false) → l.dropWhile p = l := by
  intro l h
  cases l with
  | nil => rfl
  | cons c t => exact List.dropWhile_cons_of_neg (by simp [h c (by simp)])

theorem pyStripL_spaces_key (k : List Char) (hk : ∀ c ∈ k, isPyWs c = false) :
    pyStripL (' ' :: ' ' :: k) = k := by
  unfold pyStripL
  rw [List.dropWhile_cons_of_pos (by decide), List.dropWhile_cons_of_pos (by decide),
    dropWhile_eq_self_of_all hk]
  unfold dropWsEnd
  rw [dropWhile_eq_self_of_all (fun c hc => hk c (by simpa using hc)), List.reverse_reverse]

theorem pyStripL_brace_val (v : List Char) :
    pyStripL (lbrace :: (v ++ [rbrace])) = lbrace :: (v ++ [rbrace]) := by
  unfold pyStripL
  rw [List.dropWhile_cons_of_neg (by decide)]
  unfold dropWsEnd
  have hrev : (lbrace :: (v ++ [rbrace])).reverse = rbrace :: (v.reverse ++ [lbrace]) := by
    simp
  rw [hrev, List.dropWhile_cons_of_neg (by decide), ← hrev, List.reverse_reverse]

theorem dropEnds_brace_val (v : List Char) : dropEnds (lbrace :: (v ++ [rbrace])) = v := by
  unfold dropEnds
  simp

theorem splitEqAux_cons (acc : List Char) (c : Char) (t : List Char) :
    splitEqAux acc (c :: t) =
      if c = '=' then some (dropSpacesEnd acc, t.dropWhile (fun d => d == ' '))
      else splitEqAux (acc ++ [c]) t := rfl

theorem splitEqAux_no_eq : ∀ (a acc rest : List Char), (∀ c ∈ a, c ≠ '=') →
    splitEqAux acc (a ++ rest) = splitEqAux (acc ++ a) rest := by
  intro a
  induction a with
  | nil => intro acc rest _; simp
  | cons c t ih =>
    intro acc rest h
    rw [List.cons_append, splitEqAux_cons, if_neg (h c (by simp)),
      ih (acc ++ [c]) rest (fun d hd => h d (by simp [hd]))]
    simp

theorem splitEq_fragOf (f : List Char × List Char) (hk1 : f.1 ≠ [])
    (hk2 : ∀ c ∈ f.1, isWordC c = true) :
    splitEq (fragOf f) = some (' ' :: ' ' :: f.1, lbrace :: (f.2 ++ [rbrace])) := by
  have hd : fragOf f = ((' ' :: ' ' :: f.1) ++ [' ']) ++
      ('=' :: ' ' :: lbrace :: (f.2 ++ [rbrace])) := by
    simp [fragOf]
  have hne : ∀ c ∈ (' ' :: ' ' :: f.1) ++ [' '], c ≠ '=' := by
    intro c hc
    simp only [List.mem_append, List.mem_cons] at hc
    rcases hc with (rfl | rfl | hc) | (rfl | hc)
    · decide
    · decide
    · exact ne_of_pred (hk2 c hc) (by decide)
    · decide
    · exact absurd hc (List.not_mem_nil c)
  unfold splitEq
  rw [hd, splitEqAux_no_eq ((' ' :: ' ' :: f.1) ++ [' ']) []
      ('=' :: ' ' :: lbrace :: (f.2 ++ [rbrace])) hne,
    splitEqAux_cons, if_pos rfl]
  have hval : (' ' :: lbrace :: (f.2 ++ [rbrace])).dropWhile (fun d => d == ' ') =
      lbrace :: (f.2 ++ [rbrace]) := by
    rw [List.dropWhile_cons_of_pos (by decide), List.dropWhile_cons_of_neg (by decide)]
  have hkeyall : ∀ c ∈ f.1.reverse, (c == ' ') = false :=
    fun c hc => beq_false_of_ne (ne_of_pred (hk2 c (by simpa using hc)) (by decide))
  have hkey : dropSpacesEnd ([] ++ ((' ' :: ' ' :: f.1) ++ [' '])) = ' ' :: ' ' :: f.1 := by
    rw [List.nil_append]
    unfold dropSpacesEnd
    have hrev : ((' ' :: ' ' :: f.1) ++ [' ']).reverse =
        ' ' :: (f.1.reverse ++ [' ', ' ']) := by
      simp
    have hself : f.1.reverse.dropWhile (fun d => d == ' ') = f.1.reverse :=
      dropWhile_eq_self_of_all hkeyall
    rw [hrev, List.dropWhile_cons_of_pos (by decide),
      dropWhile_append_stop [' ', ' '] (by rw [hself]; simpa using hk1), hself]
    simp
  rw [hkey, hval]

theorem addFragment_fragOf (d : List (String × FieldVal)) (f : List Char × List Char)
    (hk1 : f.1 ≠ []) (hk2 : ∀ c ∈ f.1, isWordC c = true) :
    addFragment d (fragOf f) = dinsert d (String.mk f.1) (.str (String.mk f.2)) := by
  unfold addFragment
  rw [splitEq_fragOf f hk1 hk2]
  show dinsert d (pyStrip (String.mk (' ' :: ' ' :: f.1)))
      (.str (String.mk (dropEnds (pyStripL (lbrace :: (f.2 ++ [rbrace])))))) = _
  unfold pyStrip
  rw [show (String.mk (' ' :: ' ' :: f.1)).data = ' ' :: ' ' :: f.1 from rfl,
    pyStripL_spaces_key f.1 (fun c hc => isWordC_not_pyws (hk2 c hc)),
    pyStripL_brace_val, dropEnds_brace_val]

theorem dinsert_append {α} (d : List (String × α)) (k : String) (v : α)
    (h : d.any (fun p => p.1 == k) = false) : dinsert d k v = d ++ [(k, v)] := by
  unfold dinsert
  simp [h]

theorem contains_false_forall : ∀ (l : List (List Char)) (k x : List Char),
    l.contains k = false → x ∈ l → x ≠ k := by
  intro l k
  induction l with
  | nil => intro x _ hx; cases hx
  | cons b bs ih =>
    intro x h hx
    rw [List.contains_cons, Bool.or_eq_false_iff] at h
    rcases List.mem_cons.mp hx with rfl | hx
    · intro he
      rw [he, beq_self_eq_true] at h
      simp at h
    · exact ih x h.2 hx

theorem keysDistinct_cons {k : List Char} {ks : List (List Char)}
    (h : keysDistinct (k :: ks) = true) :
    (∀ x ∈ ks, x ≠ k) ∧ keysDistinct ks = true := by
  unfold keysDistinct at h
  rw [Bool.and_eq_true] at h
  refine ⟨fun x hx => contains_false_forall ks k x (by simpa using h.1) hx, h.2⟩

theorem stringMk_beq_false {a b : List Char} (h : a ≠ b) :
    (String.mk a == String.mk b) = false :=
  beq_eq_false_iff_ne.mpr (fun he => h (by injection he))

theorem foldl_addFragment : ∀ (fs : List (List Char × List Char))
    (d : List (String × FieldVal)),
    (∀ f ∈ fs, wfField f = true) →
    keysDistinct (fs.map Prod.fst) = true →
    (∀ f ∈ fs, d.any (fun p => p.1 == String.mk f.1) = false) →
    (fs.map fragOf).foldl addFragment d = d ++ fs.map rawField := by
  intro fs
  induction fs with
  | nil => intro d _ _ _; simp
  | cons f t ih =>
    intro d hwf hdist hcol
    have hp := wfField_parts (hwf f (by simp))
    have hparts := keysDistinct_cons (by simpa using hdist)
    rw [List.map_cons, List.foldl_cons, addFragment_fragOf d f hp.1 hp.2.1,
      dinsert_append d (String.mk f.1) _ (hcol f (by simp))]
    have hcol2 : ∀ g ∈ t, (d ++ [(String.mk f.1, FieldVal.str (String.mk f.2))]).any
        (fun p => p.1 == String.mk g.1) = false := by
      intro g hg
      rw [List.any_append, Bool.or_eq_false_iff]
      refine ⟨hcol g (by simp [hg]), ?_⟩
      have hne : g.1 ≠ f.1 := hparts.1 g.1 (List.mem_map_of_mem Prod.fst hg)
      simp [stringMk_beq_false (fun he => hne he.symm)]
    rw [ih (d ++ [(String.mk f.1, FieldVal.str (String.mk f.2))])
      (fun g hg => hwf g (by simp [hg])) hparts.2 hcol2]
    simp [rawField]

theorem lookupF_append_skip {α} (d1 d2 : List (String × α)) (k : String)
    (h : ∀ p ∈ d1, (p.1 == k) = false) : lookupF (d1 ++ d2) k = lookupF d2 k := by
  unfold lookupF
  rw [List.find?_append, List.find?_eq_none.mpr (fun x hx => by simp [h x hx])]
  simp

theorem map_keyrepl_id {α} (k : String) (v : α) : ∀ (d : List (String × α)),
    (∀ p ∈ d, (p.1 == k) = false) →
    d.map (fun p => if p.1 == k then (k, v) else p) = d := by
  intro d h
  induction d with
  | nil => rfl
  | cons x xs ih =>
    rw [List.map_cons]
    try dsimp only
    rw [if_neg (by simp [h x (by simp)]), ih (fun p hp => h p (by simp [hp]))]

theorem dinsert_replace_mid {α} (d0 : List (String × α)) (k : String) (vOld vNew : α)
    (t : List (String × α)) (h0 : ∀ p ∈ d0, (p.1 == k) = false)
    (ht : ∀ p ∈ t, (p.1 == k) = false) :
    dinsert (d0 ++ (k, vOld) :: t) k vNew = d0 ++ (k, vNew) :: t := by
  unfold dinsert
  have hany : (d0 ++ (k, vOld) :: t).any (fun p => p.1 == k) = true := by
    rw [List.any_append, List.any_cons]
    simp
  rw [if_pos hany, List.map_append, List.map_cons]
  try dsimp only
  rw [beq_self_eq_true, if_pos rfl, map_keyrepl_id k vNew d0 h0, map_keyrepl_id k vNew t ht]

theorem expectedField_eq_raw {f : List Char × List Char} (h : f.1 ≠ "author".data) :
    expectedField f = rawField f := by
  unfold expectedField rawField
  rw [if_neg h]

theorem author_pass : ∀ (fs : List (List Char × List Char))
    (d0 : List (String × FieldVal)),
    (∀ p ∈ d0, (p.1 == "author") = false) →
    (∀ f ∈ fs, wfField f = true) →
    keysDistinct (fs.map Prod.fst) = true →
    (lookupF (d0 ++ fs.map rawField) "author" = Option.none ∧
      fs.map expectedField = fs.map rawField) ∨
    (∃ s, lookupF (d0 ++ fs.map rawField) "author" = some (.str s) ∧
      dinsert (d0 ++ fs.map rawField) "author" (.list (processAuthors s)) =
        d0 ++ fs.map expectedField) := by
  intro fs
  induction fs with
  | nil =>
    intro d0 h0 _ _
    left
    refine ⟨?_, rfl⟩
    simp only [List.map_nil, List.append_nil]
    unfold lookupF
    rw [List.find?_eq_none.mpr (fun x hx => by simp [h0 x hx])]
    rfl
  | cons f t ih =>
    intro d0 h0 hwf hdist
    have hparts := keysDistinct_cons
      (show keysDistinct (f.1 :: t.map Prod.fst) = true by simpa using hdist)
    have hne : ∀ g ∈ t, g.1 ≠ f.1 :=
      fun g hg => hparts.1 g.1 (List.mem_map_of_mem Prod.fst hg)
    by_cases hka : f.1 = "author".data
    · right
      have hbeq : ((rawField f).1 == "author") = true := by
        show (String.mk f.1 == String.mk "author".data) = true
        rw [hka]
        exact beq_self_eq_true _
      have hraw : rawField f = ("author", FieldVal.str (String.mk f.2)) := by
        unfold rawField
        rw [hka]
      have ht2 : ∀ p ∈ t.map rawField, (p.1 == "author") = false := by
        intro p hp
        obtain ⟨g, hg, rfl⟩ := List.mem_map.mp hp
        show (String.mk g.1 == String.mk "author".data) = false
        exact stringMk_beq_false (fun he => hne g hg (he.trans hka.symm))
      have hexp : expectedField f = ("author", FieldVal.list (processAuthors (String.mk f.2))) := by
        unfold expectedField
        rw [if_pos hka, hka]
      have hmap : t.map expectedField = t.map rawField :=
        List.map_congr_left (fun g hg =>
          expectedField_eq_raw (fun he => hne g hg (he.trans hka.symm)))
      refine ⟨String.mk f.2, ?_, ?_⟩
      · rw [List.map_cons, lookupF_append_skip d0 (rawField f :: t.map rawField) "author" h0]
        unfold lookupF
        rw [List.find?_cons_of_pos (p := fun q : String × FieldVal => q.1 == "author") _ hbeq,
          hraw]
        rfl
      · rw [List.map_cons, hraw,
          dinsert_replace_mid d0 "author" (FieldVal.str (String.mk f.2))
            (FieldVal.list (processAuthors (String.mk f.2))) (t.map rawField) h0 ht2,
          List.map_cons, hexp, hmap]
    · have hraw1 : ((rawField f).1 == "author") = false := by
        show (String.mk f.1 == String.mk "author".data) = false
        exact stringMk_beq_false hka
      have h0x : ∀ p ∈ d0 ++ [rawField f], (p.1 == "author") = false := by
        intro p hp
        rcases List.mem_append.mp hp with hp | hp
        · exact h0 p hp
        · rw [List.mem_singleton.mp hp]
          exact hraw1
      have hassoc : d0 ++ (f :: t).map rawField = (d0 ++ [rawField f]) ++ t.map rawField := by
        simp
      have hexp : expectedField f = rawField f := expectedField_eq_raw hka
      rcases ih (d0 ++ [rawField f]) h0x (fun g hg => hwf g (by simp [hg])) hparts.2 with
        ⟨hl, hm⟩ | ⟨s, hl, hd⟩
      · left
        refine ⟨by rw [hassoc]; exact hl, ?_⟩
        rw [List.map_cons, List.map_cons, hexp, hm]
      · right
        refine ⟨s, by rw [hassoc]; exact hl, ?_⟩
        rw [hassoc, hd]
        simp [hexp]

theorem toLower_of_isLower {c : Char} (h : c.isLower = true) : c.toLower = c := by
  unfold Char.isLower at h
  rw [Bool.and_eq_true] at h
  have hlo : (97 : UInt32) ≤ c.val := of_decide_eq_true h.1
  have hlo2 : 97 ≤ c.val.toNat := by
    have h2 := BitVec.le_def.mp (UInt32.le_def.mp hlo)
    simpa using h2
  show (if Char.toNat c ≥ 65 ∧ Char.toNat c ≤ 90 then Char.ofNat (Char.toNat c + 32) else c) = c
  rw [if_neg]
  rintro ⟨_, hhi⟩
  have hhi2 : c.val.toNat ≤ 90 := hhi
  omega

theorem map_toLower_id : ∀ {l : List Char}, (∀ c ∈ l, c.isLower = true) →
    l.map Char.toLower = l := by
  intro l h
  induction l with
  | nil => rfl
  | cons c t ih =>
    rw [List.map_cons, toLower_of_isLower (h c (by simp)),
      ih (fun d hd => h d (by simp [hd]))]

theorem addFragment_empty (d : List (String × FieldVal)) : addFragment d [] = d := rfl

/-- C1 (amended): on a bibliography rendered from structured entries, the
extractor applied to the key of a well-formed entry whose key differs from
every earlier key returns exactly the type field plus the entry's literal
key/value pairs in order — provided no field value contains a comma
immediately followed by a newline.  Without that amendment the claim is
false (`c1_field_cex`). -/
theorem c1_extract_amended (pre post : List BEntry) (e : BEntry)
    (hwfpre : ∀ p ∈ pre, wfEntry p = true) (hwf : wfEntry e = true)
    (huniq : ∀ p ∈ pre, e.bkey ≠ p.bkey)
    (hnc : ∀ f ∈ e.fields, occurs [',', '\n'] f.2 = false) :
    parse_bibtex_entry (String.mk (renderBib (pre ++ e :: post))) (String.mk e.bkey) =
      .ok (expectedEntry e) := by
  have hsearch := searchBib_found pre e post hwfpre huniq hwf
  obtain ⟨ht1, ht2, hk1, hk2, hf1, hf2, hf3⟩ := wfEntry_parts hwf
  unfold parse_bibtex_entry
  rw [show (String.mk e.bkey).data = e.bkey from rfl,
    show (String.mk (renderBib (pre ++ e :: post))).data = renderBib (pre ++ e :: post) from rfl,
    hsearch]
  dsimp only
  have hfragocc : ∀ f ∈ e.fields, occurs [',', '\n'] (fragOf f) = false := by
    intro f hf
    exact occurs_cnl_fragOf f (wfField_parts (hf2 f hf)).2.1 (hnc f hf)
  rw [splitOnSub_renderFields e.fields hfragocc, map_toLower_id ht2, List.foldl_cons,
    addFragment_empty]
  have hcol : ∀ f ∈ e.fields,
      ([("type", FieldVal.str (String.mk e.btype))] : List (String × FieldVal)).any
        (fun p => p.1 == String.mk f.1) = false := by
    intro f hf
    simp only [List.any_cons, List.any_nil, Bool.or_false]
    show (String.mk "type".data == String.mk f.1) = false
    exact stringMk_beq_false (fun he => (wfField_parts (hf2 f hf)).2.2.1 he.symm)
  rw [foldl_addFragment e.fields [("type", FieldVal.str (String.mk e.btype))] hf2 hf3 hcol]
  have h0 : ∀ p ∈ ([("type", FieldVal.str (String.mk e.btype))] : List (String × FieldVal)),
      (p.1 == "author") = false := by
    intro p hp
    rw [List.mem_singleton.mp hp]
    show (("type" : String) == "author") = false
    decide
  rcases author_pass e.fields [("type", FieldVal.str (String.mk e.btype))] h0 hf2 hf3 with
    ⟨hl, hm⟩ | ⟨s, hl, hd⟩
  · rw [hl]
    dsimp only
    unfold expectedEntry
    rw [hm]
    rfl
  · rw [hl]
    dsimp only
    rw [hd]
    unfold expectedEntry
    rfl

/-- C1 counterexample to the unamended claim: for the well-formed entry
`c1CexEntry`, whose abstract value contains a comma immediately followed by
a newline, the extractor returns a truncated abstract value `Hell` instead
of the literal value `Hello,\nworld`: the comma-newline split cuts the
value, and the slicing of the mis-split fragments loses characters. -/
theorem c1_field_cex :
    wfEntry c1CexEntry = true ∧
    parse_bibtex_entry (String.mk (renderBib [c1CexEntry])) (String.mk c1CexEntry.bkey) =
      .ok [("type", .str "article"), ("title", .str "T"), ("abstract", .str "Hell")] ∧
    expectedEntry c1CexEntry =
      [("type", .str "article"), ("title", .str "T"), ("abstract", .str "Hello,\nworld")] := by
  refine ⟨by decide, by rfl, by rfl⟩

/-- Witness for C1: the amended theorem applied to a concrete three-entry
bibliography. -/
theorem c1_extract_amended_witness :
    parse_bibtex_entry (String.mk (renderBib ([c1WitPre] ++ c1WitE :: [c1WitPost])))
      (String.mk c1WitE.bkey) = .ok (expectedEntry c1WitE) :=
  c1_extract_amended [c1WitPre] [c1WitPost] c1WitE (by decide) (by decide) (by decide)
    (by decide)

end BibtexBuild
